import Mathlib

set_option allowUnsafeReducibility true in
attribute [semireducible] Rat.add Rat.mul Rat.sub Rat.inv

/-!
Verification of the feed-construction and spherical-tessellation core of the
wwt-constellations backend, as a shallow embedding in Lean 4.

Conventions of the embedding:

* JavaScript numbers are modelled by `JSNum`, rationals extended with the
  IEEE special values `NaN`, `+Infinity` and `-Infinity` (exact arithmetic,
  no rounding).  Overflow plays no role in the claims under study, but the
  `0/0 = NaN` and `Math.max() = -Infinity` behaviours do, so they are
  modelled faithfully.
* The transcendental functions `Math.exp` and `Math.sin`, the
  `@wwtelescope/astro` great-circle `distance` primitive (an external
  library), and the clock `Date.now()` are parameters of the embedding,
  collected in an `Env` (for the feed constructor) or passed as an explicit
  distance function (for the tessellation queries).  All structural theorems
  hold for every choice of these parameters, hence in particular for the
  real implementations.
* `Array.prototype.sort` with the comparator `(a, b) => score(b) - score(a)`
  is modelled by the stable insertion sort `List.insertionSort` with the
  relation "comparator result is not positive" (ECMAScript requires sort
  stability; for a consistent comparator every stable sort produces the
  same list).  A comparator returning `NaN` is treated as `0` (equal), as
  the ECMAScript `SortCompare` operation specifies.
* Mongo `ObjectId`s and handle ids are modelled by `ℕ`; `toString` on them
  is injective, so the string-keyed `Record` of per-handle counts is
  modelled as a map `ℕ → Option ℕ`.
* A JavaScript runtime `TypeError` (a property access on `undefined`) is
  modelled by `Except.error ()`; functions that can reach such an access
  return `Except Unit _`.
-/

/-! ### JavaScript numbers -/

/-- A JavaScript number: an exact rational, or one of the IEEE special
values `NaN`, `+Infinity`, `-Infinity`. -/
inductive JSNum where
  | num (val : ℚ)
  | nan
  | posInf
  | negInf
deriving DecidableEq

namespace JSNum

/-- JavaScript `+`. -/
def add : JSNum → JSNum → JSNum
  | nan, _ => nan
  | _, nan => nan
  | posInf, negInf => nan
  | negInf, posInf => nan
  | posInf, _ => posInf
  | _, posInf => posInf
  | negInf, _ => negInf
  | _, negInf => negInf
  | num a, num b => num (a + b)

/-- JavaScript unary `-`. -/
def neg : JSNum → JSNum
  | nan => nan
  | posInf => negInf
  | negInf => posInf
  | num a => num (-a)

/-- JavaScript binary `-`. -/
def sub (a b : JSNum) : JSNum := add a (neg b)

/-- JavaScript `*`. -/
def mul : JSNum → JSNum → JSNum
  | nan, _ => nan
  | _, nan => nan
  | num a, num b => num (a * b)
  | num a, posInf => if a = 0 then nan else if 0 < a then posInf else negInf
  | posInf, num b => if b = 0 then nan else if 0 < b then posInf else negInf
  | num a, negInf => if a = 0 then nan else if 0 < a then negInf else posInf
  | negInf, num b => if b = 0 then nan else if 0 < b then negInf else posInf
  | posInf, posInf => posInf
  | posInf, negInf => negInf
  | negInf, posInf => negInf
  | negInf, negInf => posInf

/-- JavaScript `/` (in particular `0/0 = NaN` and `x/0 = ±Infinity` for
`x ≠ 0`; the sign of zero is not modelled, divisions by a negative zero do
not occur in the code under study). -/
def div : JSNum → JSNum → JSNum
  | nan, _ => nan
  | _, nan => nan
  | num a, num b =>
      if b = 0 then (if a = 0 then nan else if 0 < a then posInf else negInf)
      else num (a / b)
  | num _, posInf => num 0
  | num _, negInf => num 0
  | posInf, num b => if 0 ≤ b then posInf else negInf
  | negInf, num b => if 0 ≤ b then negInf else posInf
  | posInf, posInf => nan
  | posInf, negInf => nan
  | negInf, posInf => nan
  | negInf, negInf => nan

/-- JavaScript `<` (any comparison with `NaN` is false). -/
def lt : JSNum → JSNum → Bool
  | nan, _ => false
  | _, nan => false
  | num a, num b => a < b
  | negInf, negInf => false
  | negInf, _ => true
  | _, negInf => false
  | posInf, _ => false
  | num _, posInf => true

/-- JavaScript `Math.max` of two arguments (`NaN` is absorbing). -/
def max2 : JSNum → JSNum → JSNum
  | nan, _ => nan
  | _, nan => nan
  | a, b => if lt a b then b else a

/-- JavaScript `Math.max(...list)`: fold of `max2` starting from the
result `-Infinity` of the empty call. -/
def maxList (l : List JSNum) : JSNum := l.foldl max2 negInf

end JSNum

/-! ### Data model: scenes -/

/-- The sky position stored on a scene (`ra_rad`, `dec_rad`, radians). -/
structure ScenePlace where
  ra_rad : ℚ
  dec_rad : ℚ
deriving DecidableEq

/-- The fields of a `MongoScene` (with its Mongo `_id`) that the feed and
tessellation engines read.  Ids are modelled as naturals. -/
structure MongoScene where
  _id : ℕ
  handle_id : ℕ
  place : ScenePlace
  creation_date : ℚ
  likes : ℕ
  impressions : ℕ
deriving DecidableEq

/-- The environment of external primitives the feed constructor calls:
`Math.exp`, `Math.sin`, the `@wwtelescope/astro` `distance(ra1, dec1, ra2,
dec2)` function, and `Date.now()`.  All of them return ordinary (finite)
numbers on the inputs that occur, so they are rational-valued. -/
structure Env where
  exp : ℚ → ℚ
  sin : ℚ → ℚ
  distance : ℚ → ℚ → ℚ → ℚ → ℚ
  now : ℚ

/-! ### Feed constructor: scoring components -/

/-- `ScoreWeights`: the four component weights. -/
structure ScoreWeights where
  time : ℚ
  popularity : ℚ
  distance : ℚ
  variety : ℚ
deriving DecidableEq

/-- The all-ones default weights. -/
def DEFAULT_WEIGHTS : ScoreWeights := ⟨1, 1, 1, 1⟩

/-- `FeedSortingItem`: a candidate scene together with its four component
scores. -/
structure FeedSortingItem where
  scene : MongoScene
  popularityComponent : JSNum
  distanceComponent : JSNum
  varietyComponent : JSNum
  timeComponent : JSNum
deriving DecidableEq

/-- A feed: an ordered list of scenes. -/
abbrev Feed := List MongoScene

/-- `score(item, weights)`: the weighted sum of the four components
(left-associated, as in the source). -/
def score (item : FeedSortingItem) (weights : ScoreWeights) : JSNum :=
  (((JSNum.num weights.time).mul item.timeComponent).add
      ((JSNum.num weights.popularity).mul item.popularityComponent)).add
    ((JSNum.num weights.distance).mul item.distanceComponent) |>.add
    ((JSNum.num weights.variety).mul item.varietyComponent)

/-- `logisticDecay(k, t0, a)` applied to `t`:
`(1 + a·exp(-k·t0)) / (1 + a·exp(k·(t - t0)))`. -/
def logisticDecay (env : Env) (k t0 a : ℚ) (t : ℚ) : JSNum :=
  (JSNum.num (1 + a * env.exp (-k * t0))).div
    (JSNum.num (1 + a * env.exp (k * (t - t0))))

/-- `halfLogisticDecay(k, t0)`: `logisticDecay` with
`a = 1 + 2·exp(-k·t0)`. -/
def halfLogisticDecay (env : Env) (k t0 : ℚ) (t : ℚ) : JSNum :=
  logisticDecay env k t0 (1 + 2 * env.exp (-k * t0)) t

/-- `sinExpWeight(x) = sin(exp(-x²)·x)`. -/
def sinExpWeight (env : Env) (x : ℚ) : ℚ :=
  env.sin (env.exp (-(x ^ 2)) * x)

/-- `handleCountComponent(n) = exp(-n/5)`. -/
def handleCountComponent (env : Env) (n : ℚ) : ℚ :=
  env.exp (-n / 5)

/-- `distanceComponent(d) = sinExpWeight((10·d - 1)/2)`. -/
def distanceComponent (env : Env) (d : ℚ) : ℚ :=
  sinExpWeight env ((10 * d - 1) / 2)

/-- `popularity(scene) = 2·likes + impressions`. -/
def popularity (scene : MongoScene) : ℚ :=
  2 * (scene.likes : ℚ) + (scene.impressions : ℚ)

/-- `timeSinceCreation(scene) = Date.now() - creation_date`. -/
def timeSinceCreation (env : Env) (scene : MongoScene) : ℚ :=
  env.now - scene.creation_date

/-- `distanceBetween(s1, s2)`: great-circle distance between the two
scenes' places. -/
def distanceBetween (env : Env) (s1 s2 : MongoScene) : ℚ :=
  env.distance s1.place.ra_rad s1.place.dec_rad s2.place.ra_rad s2.place.dec_rad

/-! ### Feed constructor: per-handle occurrence counts -/

/-- The `Record<string, number>` of per-handle occurrence counts, keyed by
the (injectively stringified) handle id. -/
def HandleCounts : Type := ℕ → Option ℕ

/-- The empty record `{}`. -/
def hcEmpty : HandleCounts := fun _ => none

/-- `handle in handleCounts`. -/
def hcMem (m : HandleCounts) (h : ℕ) : Bool := (m h).isSome

/-- `handleCounts[handle] || 0`. -/
def hcGet (m : HandleCounts) (h : ℕ) : ℕ := (m h).getD 0

/-- `handleCounts[handle] = c`. -/
def hcSet (m : HandleCounts) (h : ℕ) (c : ℕ) : HandleCounts :=
  fun h2 => if h2 = h then some c else m h2

/-- `if (handle in handleCounts) handleCounts[handle] += 1; else
handleCounts[handle] = 1`. -/
def hcIncr (m : HandleCounts) (h : ℕ) : HandleCounts :=
  if hcMem m h then hcSet m h (hcGet m h + 1) else hcSet m h 1

/-! ### Feed constructor: selection -/

/-- The per-round update of the relational components: variety from the
current handle count, distance from the most recently placed feed item. -/
def updateComponents (env : Env) (handleCounts : HandleCounts)
    (mostRecent : MongoScene) (item : FeedSortingItem) : FeedSortingItem :=
  { item with
    varietyComponent :=
      JSNum.num (handleCountComponent env (hcGet handleCounts item.scene.handle_id)),
    distanceComponent :=
      JSNum.num (distanceComponent env (distanceBetween env mostRecent item.scene)) }

/-- The order in which the comparator `(a, b) => score(b, w) - score(a, w)`
leaves `a` before `b`: the comparator's result is not positive (a `NaN`
result counts as zero, per ECMAScript `SortCompare`). -/
def itemLe (weights : ScoreWeights) (a b : FeedSortingItem) : Prop :=
  JSNum.lt (JSNum.num 0) ((score b weights).sub (score a weights)) = false

instance (weights : ScoreWeights) : DecidableRel (itemLe weights) :=
  fun a b => inferInstanceAs (Decidable (_ = false))

/-- `items.sort((a, b) => score(b, weights) - score(a, weights))`:
a stable sort into descending score order. -/
def sortItems (weights : ScoreWeights) (items : List FeedSortingItem) :
    List FeedSortingItem :=
  List.insertionSort (itemLe weights) items

/-- The scan of the sorted candidates in the diversity window: return the
first item whose handle is not yet in the counts, together with the list
with that item removed (the `while`/`splice` loop of `nextScene`), or
`none` when every candidate's handle is already present. -/
def pickFirstFresh (handleCounts : HandleCounts) :
    List FeedSortingItem → Option (FeedSortingItem × List FeedSortingItem)
  | [] => none
  | item :: rest =>
    if hcMem handleCounts item.scene.handle_id then
      match pickFirstFresh handleCounts rest with
      | none => none
      | some (c, cs) => some (c, item :: cs)
    else
      some (item, rest)

deriving instance DecidableEq for Except

/-- `nextScene(params)`.  Mutation of `items` and `handleCounts` is made
explicit: a successful round returns the selected scene together with the
new candidate list and counts.  `Except.error ()` models the `TypeError`
raised when `feed` is empty and `items` is not (the `distanceBetween`
call dereferences `feed[feed.length - 1] === undefined`). -/
def nextScene (env : Env) (weights : ScoreWeights) (firstNDistinctHandles : ℕ)
    (items : List FeedSortingItem) (feed : Feed) (handleCounts : HandleCounts) :
    Except Unit (Option (MongoScene × List FeedSortingItem × HandleCounts)) :=
  if items.length = 0 then .ok none
  else
    match feed.getLast? with
    | none => .error ()
    | some mostRecent =>
      if feed.length < firstNDistinctHandles then
        match pickFirstFresh handleCounts
            (sortItems weights (items.map (updateComponents env handleCounts mostRecent))) with
        | none => .ok none
        | some (item, rest) =>
          .ok (some (item.scene, rest, hcSet handleCounts item.scene.handle_id 1))
      else
        match sortItems weights (items.map (updateComponents env handleCounts mostRecent)) with
        | [] => .ok none
        | item :: rest =>
          .ok (some (item.scene, rest, hcIncr handleCounts item.scene.handle_id))

/-! ### Feed constructor: top level -/

/-- `FeedConstructionParams` (all optional fields modelled as `Option`;
`size : none` is the JS default `Infinity`). -/
structure FeedConstructionParams where
  scenes : List MongoScene
  initialScene : Option MongoScene
  weights : Option ScoreWeights
  firstNDistinctHandles : Option ℕ
  size : Option ℕ
deriving DecidableEq

/-- `feed.length < size` where `size : none` is `Infinity`. -/
def sizeAllows : Option ℕ → ℕ → Bool
  | none, _ => true
  | some n, len => len < n

/-- The `while (feed.length < size && (next = nextScene(...)) !== null)`
loop.  Every successful round removes one candidate, so running the loop
with `fuel = items.length` is exact: when the fuel is exhausted the
candidate pool is empty and `nextScene` would return `null` anyway
(see `feedLoop_fuel_irrelevant`). -/
def feedLoop (env : Env) (weights : ScoreWeights) (firstNDistinctHandles : ℕ)
    (size : Option ℕ) :
    ℕ → List FeedSortingItem → HandleCounts → Feed → Except Unit Feed
  | 0, _, _, feed => .ok feed
  | fuel + 1, items, handleCounts, feed =>
    if sizeAllows size feed.length then
      match nextScene env weights firstNDistinctHandles items feed handleCounts with
      | .error e => .error e
      | .ok none => .ok feed
      | .ok (some (s, items2, counts2)) =>
        feedLoop env weights firstNDistinctHandles size fuel items2 counts2 (feed ++ [s])
    else .ok feed

/-- The scorable pool: when an `initialScene` is supplied, every pool entry
whose `_id` equals its `_id` is filtered out. -/
def scorableScenes (params : FeedConstructionParams) : List MongoScene :=
  match params.initialScene with
  | some initial => params.scenes.filter (fun s => !(s._id == initial._id))
  | none => params.scenes

/-- `Math.max(...scenes.map(popularity))`. -/
def maxPopularity (scenes : List MongoScene) : JSNum :=
  JSNum.maxList (scenes.map (fun s => JSNum.num (popularity s)))

/-- `millisecondsPerWeek = 1000 * 60 * 60 * 24 * 7`. -/
def millisecondsPerWeek : ℚ := 1000 * 60 * 60 * 24 * 7

/-- The initial `FeedSortingItem`s: the intrinsic popularity and time
components are filled in (popularity normalized by the pool maximum — with
no guard against a zero maximum — and time through
`halfLogisticDecay(0.01, millisecondsPerWeek)`), the relational components
start at 0. -/
def initialItems (env : Env) (scenes : List MongoScene) : List FeedSortingItem :=
  scenes.map (fun scene =>
    { scene := scene
      popularityComponent := (JSNum.num (popularity scene)).div (maxPopularity scenes)
      distanceComponent := JSNum.num 0
      varietyComponent := JSNum.num 0
      timeComponent :=
        halfLogisticDecay env (1 / 100) millisecondsPerWeek
          (timeSinceCreation env scene) })

/-- `constructFeed(params)`.  `Except.error ()` models the `TypeError` of
`remainingScenes.shift()!.scene` when the pool is empty and no seed was
given.  Note that the up-front sort of the pool uses the *default* weights
(the source calls `score(b) - score(a)` without passing `weights` there). -/
def constructFeed (env : Env) (params : FeedConstructionParams) : Except Unit Feed :=
  let firstNDistinctHandles := params.firstNDistinctHandles.getD 5
  let weights := params.weights.getD DEFAULT_WEIGHTS
  let scenes := scorableScenes params
  let sorted := sortItems DEFAULT_WEIGHTS (initialItems env scenes)
  match params.initialScene with
  | some initial =>
    feedLoop env weights firstNDistinctHandles params.size sorted.length sorted
      (hcSet hcEmpty initial.handle_id 1) [initial]
  | none =>
    match sorted with
    | [] => .error ()
    | first :: rest =>
      feedLoop env weights firstNDistinctHandles params.size rest.length rest
        (hcSet hcEmpty first.scene.handle_id 1) [first.scene]

/-! ### Tessellation engine -/

/-- `MongoTessellation`: parallel arrays of points (radians), scene ids,
neighbor index lists, polygons, plus name and timestamp. -/
structure MongoTessellation where
  name : String
  neighbors : List (List ℕ)
  polygons : List (List (ℚ × ℚ))
  scene_ids : List ℕ
  points : List (ℚ × ℚ)
  last_updated : ℚ
deriving DecidableEq

/-- Great-circle distance of the query to cell `i`'s point: the quantity
`distance(raRad, decRad, p[0], p[1])` the source computes for
`p = tessellation.points[i]`.  The distance function `d` is the external
`@wwtelescope/astro` `distance`, an arbitrary function into a linearly
ordered type. -/
def cellDist {α : Type} [LinearOrder α] (d : ℚ → ℚ → ℚ → ℚ → α)
    (tessellation : MongoTessellation) (raRad decRad : ℚ) (i : ℕ) : α :=
  d raRad decRad (tessellation.points.getD i (0, 0)).1
    (tessellation.points.getD i (0, 0)).2

/-- One pass of the `forEach` over the current cell's neighbor list in
`findCell`: fold the running `(dist, next)` pair, updating both whenever a
neighbor is strictly closer than the running distance.  (The `return`
inside the JS callback only ends that callback, so the scan continues and
may keep improving.) -/
def findCellScan {α : Type} [LinearOrder α] (d : ℚ → ℚ → ℚ → ℚ → α)
    (tessellation : MongoTessellation) (raRad decRad : ℚ)
    (dist0 : α) (neighbors : List ℕ) : α × Option ℕ :=
  neighbors.foldl
    (fun acc i =>
      if cellDist d tessellation raRad decRad i < acc.1
      then (cellDist d tessellation raRad decRad i, some i) else acc)
    (dist0, none)

/-- The decision taken by one iteration of the `do ... while` body of
`findCell` at cell `cell`: `some i` to move to neighbor `i`, `none` to
stop. -/
def findCellStep {α : Type} [LinearOrder α] (d : ℚ → ℚ → ℚ → ℚ → α)
    (tessellation : MongoTessellation) (raRad decRad : ℚ) (cell : ℕ) : Option ℕ :=
  (findCellScan d tessellation raRad decRad
      (cellDist d tessellation raRad decRad cell)
      (tessellation.neighbors.getD cell [])).2

/-- The `do ... while (next !== null)` loop of `findCell`.  Each move goes
to a strictly closer cell, so the loop makes at most `points.length - 1`
moves; running it with `fuel = points.length` is exact (see the
termination theorem for claim C10). -/
def findCellLoop {α : Type} [LinearOrder α] (d : ℚ → ℚ → ℚ → ℚ → α)
    (tessellation : MongoTessellation) (raRad decRad : ℚ) :
    ℕ → ℕ → ℕ
  | 0, cell => cell
  | fuel + 1, cell =>
    match findCellStep d tessellation raRad decRad cell with
    | none => cell
    | some i => findCellLoop d tessellation raRad decRad fuel i

/-- The list of cells visited by `findCell` (the successive values of
`cell`), for the same fuel discipline as `findCellLoop`. -/
def findCellTrace {α : Type} [LinearOrder α] (d : ℚ → ℚ → ℚ → ℚ → α)
    (tessellation : MongoTessellation) (raRad decRad : ℚ) :
    ℕ → ℕ → List ℕ
  | 0, cell => [cell]
  | fuel + 1, cell =>
    match findCellStep d tessellation raRad decRad cell with
    | none => [cell]
    | some i => cell :: findCellTrace d tessellation raRad decRad fuel i

/-- `findCell(tessellation, raRad, decRad, next?)`: greedy descent over the
neighbor graph starting from the hint `next` (or cell 0). -/
def findCell {α : Type} [LinearOrder α] (tessellation : MongoTessellation)
    (d : ℚ → ℚ → ℚ → ℚ → α) (raRad decRad : ℚ) (next : Option ℕ) : ℕ :=
  findCellLoop d tessellation raRad decRad tessellation.points.length (next.getD 0)

/-- `findCellWithRadius(tessellation, raRad, decRad, radius?)`: run
`findCell` with no hint, then reject the result when a radius is supplied
and the check `!radius || distance < radius` fails.  Note `!radius` is a
JS falsiness test: an *absent or zero* radius disables the check. -/
def findCellWithRadius {α : Type} [LinearOrderedField α]
    (tessellation : MongoTessellation) (d : ℚ → ℚ → ℚ → ℚ → α)
    (raRad decRad : ℚ) (radius : Option α) : Option ℕ :=
  let found := findCell tessellation d raRad decRad none
  let foundPoint := tessellation.points.getD found (0, 0)
  match radius with
  | none => some found
  | some r =>
    if r = 0 then some found
    else if d raRad decRad foundPoint.1 foundPoint.2 < r then some found
    else none

/-! ### Nearby-scene traversal -/

/-- The `while (sceneIDs.length < size && queue.length > 0)` loop of
`nearbySceneIDs`: breadth-first traversal with a visited set.  Each
iteration dequeues one index and enqueues at most one (distinct, unvisited)
index's neighbor list, so
`1 + neighbors.length + Σ |neighbor list|` iterations always suffice; the
fuel discipline is exact (see `nearbyLoop_fuel_irrelevant`). -/
def nearbyLoop (tessellation : MongoTessellation) (size : ℕ) :
    ℕ → List ℕ → Finset ℕ → List ℕ → List ℕ
  | 0, _, _, sceneIDs => sceneIDs
  | fuel + 1, queue, visited, sceneIDs =>
    if sceneIDs.length < size then
      match queue with
      | [] => sceneIDs
      | sceneIndex :: rest =>
        if sceneIndex ∈ visited then
          nearbyLoop tessellation size fuel rest visited sceneIDs
        else
          nearbyLoop tessellation size fuel
            (rest ++ tessellation.neighbors.getD sceneIndex [])
            (insert sceneIndex visited)
            (sceneIDs ++ [tessellation.scene_ids.getD sceneIndex 0])
    else sceneIDs

/-- The fuel budget for `nearbyLoop` (an upper bound on its iteration
count, see `nearbyLoop_fuel_irrelevant`). -/
def nearbyFuel (tessellation : MongoTessellation) : ℕ :=
  1 + tessellation.neighbors.length + (tessellation.neighbors.map List.length).sum

/-- `nearbySceneIDs(sceneID, baseTessellation, size)`: seed the output with
`sceneID`, locate its index (returning just the seed when absent), then
breadth-first collect ids. -/
def nearbySceneIDs (sceneID : ℕ) (baseTessellation : MongoTessellation)
    (size : ℕ) : List ℕ :=
  match baseTessellation.scene_ids.findIdx? (fun id => id == sceneID) with
  | none => [sceneID]
  | some index =>
    nearbyLoop baseTessellation size (nearbyFuel baseTessellation) [index] ∅ [sceneID]



/-! ### Structural lemmas about selection -/

theorem updateComponents_scene (env : Env) (counts : HandleCounts)
    (mr : MongoScene) (it : FeedSortingItem) :
    (updateComponents env counts mr it).scene = it.scene := rfl

theorem sortItems_perm (w : ScoreWeights) (l : List FeedSortingItem) :
    (sortItems w l).Perm l := List.perm_insertionSort _ _

theorem sortItems_length (w : ScoreWeights) (l : List FeedSortingItem) :
    (sortItems w l).length = l.length := (sortItems_perm w l).length_eq

theorem pickFirstFresh_none_iff {counts : HandleCounts} {l : List FeedSortingItem} :
    pickFirstFresh counts l = none ↔
      ∀ it ∈ l, hcMem counts it.scene.handle_id = true := by
  induction l with
  | nil => simp [pickFirstFresh]
  | cons x xs ih =>
    by_cases hx : hcMem counts x.scene.handle_id
    · rw [pickFirstFresh, if_pos hx]
      cases h : pickFirstFresh counts xs with
      | none =>
        simp only [List.mem_cons]
        constructor
        · intro _ it hit
          rcases hit with rfl | hit
          · exact hx
          · exact (ih.mp h) it hit
        · intro _; trivial
      | some p =>
        rcases p with ⟨c, cs⟩
        simp only [List.mem_cons]
        constructor
        · intro hcontra; exact absurd hcontra (by simp)
        · intro hall
          have : pickFirstFresh counts xs = none := ih.mpr (fun it hit => hall it (Or.inr hit))
          rw [h] at this; exact absurd this (by simp)
    · rw [pickFirstFresh, if_neg hx]
      constructor
      · intro hcontra; exact absurd hcontra (by simp)
      · intro hall
        exact absurd (hall x (List.mem_cons_self x xs)) (by simp [hx])

theorem pickFirstFresh_split {counts : HandleCounts} {l : List FeedSortingItem}
    {it : FeedSortingItem} {rest : List FeedSortingItem}
    (h : pickFirstFresh counts l = some (it, rest)) :
    ∃ pre suf, l = pre ++ it :: suf ∧ rest = pre ++ suf ∧
      hcMem counts it.scene.handle_id = false ∧
      ∀ x ∈ pre, hcMem counts x.scene.handle_id = true := by
  induction l generalizing it rest with
  | nil => exact absurd h (by simp [pickFirstFresh])
  | cons x xs ih =>
    by_cases hx : hcMem counts x.scene.handle_id
    · rw [pickFirstFresh, if_pos hx] at h
      cases hrec : pickFirstFresh counts xs with
      | none => rw [hrec] at h; exact absurd h (by simp)
      | some p =>
        rcases p with ⟨c, cs⟩
        rw [hrec] at h
        simp only [Option.some_inj, Prod.mk.injEq] at h
        rcases h with ⟨rfl, rfl⟩
        rcases ih hrec with ⟨pre, suf, hl, hr, hfresh, hpre⟩
        refine ⟨x :: pre, suf, by simp [hl], by simp [hr], hfresh, ?_⟩
        intro y hy
        rcases List.mem_cons.mp hy with rfl | hy
        · exact hx
        · exact hpre y hy
    · rw [pickFirstFresh, if_neg hx] at h
      simp only [Option.some_inj, Prod.mk.injEq] at h
      rcases h with ⟨rfl, rfl⟩
      exact ⟨[], xs, by simp, by simp, by simpa using hx, by simp⟩

theorem pickFirstFresh_perm {counts : HandleCounts} {l : List FeedSortingItem}
    {it : FeedSortingItem} {rest : List FeedSortingItem}
    (h : pickFirstFresh counts l = some (it, rest)) :
    (it :: rest).Perm l := by
  rcases pickFirstFresh_split h with ⟨pre, suf, hl, hr, -, -⟩
  rw [hl, hr]
  exact List.perm_middle.symm

/-- Membership in the per-handle counts after either update performed by a
successful `nextScene` round. -/
theorem hcMem_hcSet (m : HandleCounts) (h c x : ℕ) :
    hcMem (hcSet m h c) x = true ↔ (x = h ∨ hcMem m x = true) := by
  by_cases hx : x = h <;> simp [hcMem, hcSet, hx]

theorem hcMem_hcIncr (m : HandleCounts) (h x : ℕ) :
    hcMem (hcIncr m h) x = true ↔ (x = h ∨ hcMem m x = true) := by
  unfold hcIncr
  by_cases hm : hcMem m h <;> simp [hm, hcMem_hcSet]

/-- The set of handle ids appearing among a list of candidates. -/
def itemHandles (l : List FeedSortingItem) : Finset ℕ :=
  (l.map (fun it => it.scene.handle_id)).toFinset

theorem perm_toFinset {l1 l2 : List ℕ} (h : l1.Perm l2) :
    l1.toFinset = l2.toFinset := by
  ext x
  simp [List.mem_toFinset, h.mem_iff]

theorem itemHandles_sort_update (env : Env) (w : ScoreWeights)
    (counts : HandleCounts) (mr : MongoScene) (items : List FeedSortingItem) :
    itemHandles (sortItems w (items.map (updateComponents env counts mr)))
      = itemHandles items := by
  unfold itemHandles
  have h1 := (sortItems_perm w (items.map (updateComponents env counts mr))).map
    (fun it => it.scene.handle_id)
  have h2 : (items.map (updateComponents env counts mr)).map (fun it => it.scene.handle_id)
      = items.map (fun it => it.scene.handle_id) := by
    simp only [List.map_map]
    rfl
  rw [h2] at h1
  exact perm_toFinset h1

/-- Everything a successful `nextScene` round guarantees: the selected
scene comes from the pool, exactly one candidate is removed, the surviving
candidates' scenes come from the pool, the selected handle rejoins the
surviving handles to give the pool's handles, the new counts hold exactly
the old handles plus the selected one, and in the diversity window the
selected handle was not yet present. -/
theorem nextScene_some {env : Env} {w : ScoreWeights} {fN : ℕ}
    {items : List FeedSortingItem} {feed : Feed} {counts : HandleCounts}
    {s : MongoScene} {its2 : List FeedSortingItem} {c2 : HandleCounts}
    (h : nextScene env w fN items feed counts = .ok (some (s, its2, c2))) :
    (∃ it ∈ items, it.scene = s) ∧
    its2.length + 1 = items.length ∧
    (∀ x ∈ its2, ∃ y ∈ items, y.scene = x.scene) ∧
    itemHandles items = insert s.handle_id (itemHandles its2) ∧
    (∀ x, hcMem c2 x = true ↔ (x = s.handle_id ∨ hcMem counts x = true)) ∧
    (feed.length < fN → hcMem counts s.handle_id = false) := by
  unfold nextScene at h
  by_cases hlen : items.length = 0
  · rw [if_pos hlen] at h; cases h
  · rw [if_neg hlen] at h
    cases hlast : feed.getLast? with
    | none => rw [hlast] at h; cases h
    | some mr =>
      rw [hlast] at h
      dsimp only at h
      have hperm : (sortItems w (items.map (updateComponents env counts mr))).Perm
          (items.map (updateComponents env counts mr)) := sortItems_perm _ _
      have hhandles := itemHandles_sort_update env w counts mr items
      by_cases hwin : feed.length < fN
      · rw [if_pos hwin] at h
        cases hpick : pickFirstFresh counts
            (sortItems w (items.map (updateComponents env counts mr))) with
        | none => rw [hpick] at h; cases h
        | some p =>
          rcases p with ⟨item, rest⟩
          rw [hpick] at h
          simp only [Except.ok.injEq, Option.some.injEq, Prod.mk.injEq] at h
          rcases h with ⟨hs, hits2, hc2⟩
          subst hs; subst hits2; subst hc2
          have hpp := pickFirstFresh_perm hpick
          have hfresh := (pickFirstFresh_split hpick).choose_spec.choose_spec.2.2.1
          have hmemsorted : item ∈ sortItems w (items.map (updateComponents env counts mr)) :=
            hpp.mem_iff.mp (List.mem_cons_self _ _)
          have hmemmap := hperm.mem_iff.mp hmemsorted
          rcases List.mem_map.mp hmemmap with ⟨y, hy, hupd⟩
          refine ⟨⟨y, hy, by rw [← hupd]; rfl⟩, ?_, ?_, ?_, ?_, fun _ => hfresh⟩
          · have := hpp.length_eq
            simp only [List.length_cons] at this
            rw [this, hperm.length_eq, List.length_map]
          · intro x hx
            have hxs : x ∈ sortItems w (items.map (updateComponents env counts mr)) :=
              hpp.mem_iff.mp (List.mem_cons_of_mem _ hx)
            rcases List.mem_map.mp (hperm.mem_iff.mp hxs) with ⟨y2, hy2, hupd2⟩
            exact ⟨y2, hy2, by rw [← hupd2]; rfl⟩
          · rw [← hhandles]
            unfold itemHandles
            have := perm_toFinset (hpp.map (fun it => it.scene.handle_id))
            simp only [List.map_cons] at this
            rw [← this]
            simp [List.toFinset_cons]
          · intro x
            exact hcMem_hcSet counts item.scene.handle_id 1 x
      · rw [if_neg hwin] at h
        cases hsorted : sortItems w (items.map (updateComponents env counts mr)) with
        | nil => rw [hsorted] at h; cases h
        | cons item rest =>
          rw [hsorted] at h
          simp only [Except.ok.injEq, Option.some.injEq, Prod.mk.injEq] at h
          rcases h with ⟨hs, hits2, hc2⟩
          subst hs; subst hits2; subst hc2
          rw [hsorted] at hperm hhandles
          have hmemmap := hperm.mem_iff.mp (List.mem_cons_self _ _)
          rcases List.mem_map.mp hmemmap with ⟨y, hy, hupd⟩
          refine ⟨⟨y, hy, by rw [← hupd]; rfl⟩, ?_, ?_, ?_, ?_, fun hw => absurd hw hwin⟩
          · have := hperm.length_eq
            simp only [List.length_cons, List.length_map] at this
            omega
          · intro x hx
            rcases List.mem_map.mp (hperm.mem_iff.mp (List.mem_cons_of_mem _ hx)) with
              ⟨y2, hy2, hupd2⟩
            exact ⟨y2, hy2, by rw [← hupd2]; rfl⟩
          · rw [← hhandles]
            unfold itemHandles
            simp [List.toFinset_cons]
          · intro x
            exact hcMem_hcIncr counts item.scene.handle_id x

/-- In the diversity window (with a nonempty feed), `nextScene` returns
`null` exactly when every remaining candidate's handle is already
present. -/
theorem nextScene_none_iff {env : Env} {w : ScoreWeights} {fN : ℕ}
    {items : List FeedSortingItem} {feed : Feed} {counts : HandleCounts}
    (hfeed : feed ≠ []) (hwin : feed.length < fN) :
    nextScene env w fN items feed counts = .ok none ↔
      ∀ it ∈ items, hcMem counts it.scene.handle_id = true := by
  unfold nextScene
  by_cases hlen : items.length = 0
  · rw [if_pos hlen]
    have : items = [] := List.length_eq_zero.mp hlen
    subst this
    simp
  · rw [if_neg hlen]
    cases hlast : feed.getLast? with
    | none => exact absurd (List.getLast?_eq_none_iff.mp hlast) hfeed
    | some mr =>
      dsimp only
      rw [if_pos hwin]
      have hperm : (sortItems w (items.map (updateComponents env counts mr))).Perm
          (items.map (updateComponents env counts mr)) := sortItems_perm _ _
      cases hpick : pickFirstFresh counts
          (sortItems w (items.map (updateComponents env counts mr))) with
      | none =>
        simp only [true_iff]
        have hall := pickFirstFresh_none_iff.mp hpick
        intro it hit
        have : updateComponents env counts mr it ∈
            sortItems w (items.map (updateComponents env counts mr)) :=
          hperm.mem_iff.mpr (List.mem_map_of_mem _ hit)
        exact hall (updateComponents env counts mr it) this
      | some p =>
        rcases p with ⟨c, cs⟩
        constructor
        · intro hcontra; exact absurd hcontra (by simp)
        · intro hall
          have : pickFirstFresh counts
              (sortItems w (items.map (updateComponents env counts mr))) = none := by
            rw [pickFirstFresh_none_iff]
            intro it hit
            rcases List.mem_map.mp (hperm.mem_iff.mp hit) with ⟨y, hy, hupd⟩
            rw [← hupd]
            exact hall y hy
          rw [hpick] at this
          exact absurd this (by simp)

/-- `nextScene` can only raise (the modelled `TypeError`) when the feed is
empty. -/
theorem nextScene_ok_of_ne_nil {env : Env} {w : ScoreWeights} {fN : ℕ}
    {items : List FeedSortingItem} {feed : Feed} {counts : HandleCounts}
    (hfeed : feed ≠ []) :
    ∃ r, nextScene env w fN items feed counts = .ok r := by
  unfold nextScene
  by_cases hlen : items.length = 0
  · rw [if_pos hlen]; exact ⟨none, rfl⟩
  · rw [if_neg hlen]
    cases hlast : feed.getLast? with
    | none => exact absurd (List.getLast?_eq_none_iff.mp hlast) hfeed
    | some mr =>
      dsimp only
      by_cases hwin : feed.length < fN
      · rw [if_pos hwin]
        cases hpick : pickFirstFresh counts
            (sortItems w (items.map (updateComponents env counts mr))) with
        | none => exact ⟨none, rfl⟩
        | some p =>
          rcases p with ⟨item, rest⟩
          exact ⟨some (item.scene, rest, hcSet counts item.scene.handle_id 1), rfl⟩
      · rw [if_neg hwin]
        cases hsorted : sortItems w (items.map (updateComponents env counts mr)) with
        | nil => exact ⟨none, rfl⟩
        | cons item rest =>
          exact ⟨some (item.scene, rest, hcIncr counts item.scene.handle_id), rfl⟩

/-! ### Lemmas about the selection loop -/

theorem nextScene_nil (env : Env) (w : ScoreWeights) (fN : ℕ) (feed : Feed)
    (counts : HandleCounts) :
    nextScene env w fN [] feed counts = .ok none := rfl

/-- The loop only appends: the result extends the accumulated feed, and
every appended scene is a candidate's scene. -/
theorem feedLoop_shape {env : Env} {w : ScoreWeights} {fN : ℕ} {size : Option ℕ} :
    ∀ {fuel : ℕ} {items : List FeedSortingItem} {counts : HandleCounts}
      {feed out : Feed},
      feedLoop env w fN size fuel items counts feed = .ok out →
      ∃ ext, out = feed ++ ext ∧ ∀ x ∈ ext, ∃ it ∈ items, it.scene = x := by
  intro fuel
  induction fuel with
  | zero =>
    intro items counts feed out h
    simp only [feedLoop, Except.ok.injEq] at h
    exact ⟨[], by simp [h], by simp⟩
  | succ fuel ih =>
    intro items counts feed out h
    simp only [feedLoop] at h
    by_cases hsz : sizeAllows size feed.length = true
    · rw [if_pos hsz] at h
      cases hns : nextScene env w fN items feed counts with
      | error e => rw [hns] at h; cases h
      | ok r =>
        cases r with
        | none =>
          rw [hns] at h
          simp only [Except.ok.injEq] at h
          exact ⟨[], by simp [h], by simp⟩
        | some v =>
          rcases v with ⟨s, its2, c2⟩
          rw [hns] at h
          dsimp only at h
          rcases ih h with ⟨ext2, hout, hext2⟩
          rcases nextScene_some hns with ⟨hsmem, -, hsub, -, -, -⟩
          refine ⟨s :: ext2, by simp [hout], ?_⟩
          intro x hx
          rcases List.mem_cons.mp hx with rfl | hx
          · exact hsmem
          · rcases hext2 x hx with ⟨it, hit, hsc⟩
            rcases hsub it hit with ⟨y, hy, hysc⟩
            exact ⟨y, hy, by rw [hysc, hsc]⟩
    · rw [if_neg hsz] at h
      simp only [Except.ok.injEq] at h
      exact ⟨[], by simp [h], by simp⟩

/-- Preservation of the diversity-window invariant: if every feed handle is
recorded in the counts and the first `fN` feed handles are distinct, the
same holds for the loop's output. -/
theorem feedLoop_window {env : Env} {w : ScoreWeights} {fN : ℕ} {size : Option ℕ} :
    ∀ {fuel : ℕ} {items : List FeedSortingItem} {counts : HandleCounts}
      {feed out : Feed},
      (∀ t ∈ feed, hcMem counts t.handle_id = true) →
      ((feed.take fN).map (fun t => t.handle_id)).Nodup →
      feedLoop env w fN size fuel items counts feed = .ok out →
      ((out.take fN).map (fun t => t.handle_id)).Nodup := by
  intro fuel
  induction fuel with
  | zero =>
    intro items counts feed out hmem hnd h
    simp only [feedLoop, Except.ok.injEq] at h
    rw [← h]; exact hnd
  | succ fuel ih =>
    intro items counts feed out hmem hnd h
    simp only [feedLoop] at h
    by_cases hsz : sizeAllows size feed.length = true
    · rw [if_pos hsz] at h
      cases hns : nextScene env w fN items feed counts with
      | error e => rw [hns] at h; cases h
      | ok r =>
        cases r with
        | none =>
          rw [hns] at h
          simp only [Except.ok.injEq] at h
          rw [← h]; exact hnd
        | some v =>
          rcases v with ⟨s, its2, c2⟩
          rw [hns] at h
          dsimp only at h
          rcases nextScene_some hns with ⟨-, -, -, -, hc2, hfresh⟩
          have hmem2 : ∀ t ∈ feed ++ [s], hcMem c2 t.handle_id = true := by
            intro t ht
            rcases List.mem_append.mp ht with ht | ht
            · exact (hc2 t.handle_id).mpr (Or.inr (hmem t ht))
            · rcases List.mem_singleton.mp ht with rfl
              exact (hc2 t.handle_id).mpr (Or.inl rfl)
          have hnd2 : (((feed ++ [s]).take fN).map (fun t => t.handle_id)).Nodup := by
            by_cases hw : feed.length < fN
            · have hlen : (feed ++ [s]).length ≤ fN := by
                simp only [List.length_append, List.length_singleton]
                omega
              rw [List.take_of_length_le hlen, List.map_append]
              have hfeedtake : feed.take fN = feed :=
                List.take_of_length_le (by omega)
              rw [hfeedtake] at hnd
              have hnotmem : s.handle_id ∉ feed.map (fun t => t.handle_id) := by
                intro hcontra
                rcases List.mem_map.mp hcontra with ⟨t, ht, hth⟩
                have := hmem t ht
                rw [hth] at this
                rw [hfresh hw] at this
                cases this
              simp only [List.map_singleton]
              rw [List.nodup_append]
              exact ⟨hnd, List.nodup_singleton _, by simpa [List.disjoint_singleton] using hnotmem⟩
            · rw [List.take_append_of_le_length (by omega)]
              exact hnd
          exact ih hmem2 hnd2 h
    · rw [if_neg hsz] at h
      simp only [Except.ok.injEq] at h
      rw [← h]; exact hnd

/-- With `size = some N`, the loop never grows the feed beyond
`max N feed.length`. -/
theorem feedLoop_length_le {env : Env} {w : ScoreWeights} {fN : ℕ} {N : ℕ} :
    ∀ {fuel : ℕ} {items : List FeedSortingItem} {counts : HandleCounts}
      {feed out : Feed},
      feedLoop env w fN (some N) fuel items counts feed = .ok out →
      out.length ≤ max N feed.length := by
  intro fuel
  induction fuel with
  | zero =>
    intro items counts feed out h
    simp only [feedLoop, Except.ok.injEq] at h
    rw [← h]; omega
  | succ fuel ih =>
    intro items counts feed out h
    simp only [feedLoop] at h
    by_cases hsz : sizeAllows (some N) feed.length = true
    · rw [if_pos hsz] at h
      have hlt : feed.length < N := by
        simpa [sizeAllows] using hsz
      cases hns : nextScene env w fN items feed counts with
      | error e => rw [hns] at h; cases h
      | ok r =>
        cases r with
        | none =>
          rw [hns] at h
          simp only [Except.ok.injEq] at h
          rw [← h]; omega
        | some v =>
          rcases v with ⟨s, its2, c2⟩
          rw [hns] at h
          dsimp only at h
          have := ih h
          simp only [List.length_append, List.length_singleton] at this
          omega
    · rw [if_neg hsz] at h
      simp only [Except.ok.injEq] at h
      have : ¬ feed.length < N := by
        simpa [sizeAllows] using hsz
      rw [← h]; omega

/-- Fuel faithfulness: with fuel at least the number of candidates, the
fuel bound is never the reason the loop stops (each round consumes one
candidate, and an empty pool stops the loop by itself), so the `while`
loop's semantics does not depend on the chosen fuel. -/
theorem feedLoop_fuel_irrelevant {env : Env} {w : ScoreWeights} {fN : ℕ}
    {size : Option ℕ} :
    ∀ {fuel : ℕ} {items : List FeedSortingItem} {counts : HandleCounts} {feed : Feed},
      items.length ≤ fuel →
      feedLoop env w fN size (fuel + 1) items counts feed
        = feedLoop env w fN size fuel items counts feed := by
  intro fuel
  induction fuel with
  | zero =>
    intro items counts feed hle
    have : items = [] := List.length_eq_zero.mp (by omega)
    subst this
    simp [feedLoop, nextScene_nil]
  | succ fuel ih =>
    intro items counts feed hle
    conv_lhs => rw [feedLoop]
    conv_rhs => rw [feedLoop]
    by_cases hsz : sizeAllows size feed.length = true
    · rw [if_pos hsz, if_pos hsz]
      cases hns : nextScene env w fN items feed counts with
      | error e => rfl
      | ok r =>
        cases r with
        | none => rfl
        | some v =>
          rcases v with ⟨s, its2, c2⟩
          dsimp only
          have hlen := (nextScene_some hns).2.1
          exact ih (by omega)
    · rw [if_neg hsz, if_neg hsz]

/-! ### Unfolding equations for constructFeed -/

theorem constructFeed_some_eq (env : Env) (params : FeedConstructionParams)
    (initial : MongoScene) (h : params.initialScene = some initial) :
    constructFeed env params =
      feedLoop env (params.weights.getD DEFAULT_WEIGHTS)
        (params.firstNDistinctHandles.getD 5) params.size
        (sortItems DEFAULT_WEIGHTS (initialItems env (scorableScenes params))).length
        (sortItems DEFAULT_WEIGHTS (initialItems env (scorableScenes params)))
        (hcSet hcEmpty initial.handle_id 1) [initial] := by
  unfold constructFeed
  rw [h]

theorem constructFeed_none_eq (env : Env) (params : FeedConstructionParams)
    (h : params.initialScene = none) :
    constructFeed env params =
      match sortItems DEFAULT_WEIGHTS (initialItems env (scorableScenes params)) with
      | [] => .error ()
      | first :: rest =>
        feedLoop env (params.weights.getD DEFAULT_WEIGHTS)
          (params.firstNDistinctHandles.getD 5) params.size
          rest.length rest (hcSet hcEmpty first.scene.handle_id 1) [first.scene] := by
  unfold constructFeed
  rw [h]

/-! ### Concrete fixtures for witnesses and counterexamples -/

/-- An environment with trivial transcendental primitives (the structural
theorems hold for every environment, so any concrete one witnesses them). -/
def envZero : Env :=
  { exp := fun _ => 0, sin := fun _ => 0, distance := fun _ _ _ _ => 0, now := 0 }

def sceneZero : MongoScene :=
  { _id := 1, handle_id := 10, place := ⟨0, 0⟩, creation_date := 0,
    likes := 0, impressions := 0 }

def sceneZeroB : MongoScene :=
  { _id := 4, handle_id := 20, place := ⟨2, 1⟩, creation_date := 0,
    likes := 0, impressions := 0 }

def scenePopular : MongoScene :=
  { _id := 2, handle_id := 20, place := ⟨1, 0⟩, creation_date := 0,
    likes := 3, impressions := 1 }

def sceneThird : MongoScene :=
  { _id := 3, handle_id := 10, place := ⟨2, 0⟩, creation_date := 0,
    likes := 1, impressions := 0 }

theorem mem_sortItems_initialItems {w : ScoreWeights} {env : Env}
    {scenes : List MongoScene} {it : FeedSortingItem}
    (h : it ∈ sortItems w (initialItems env scenes)) : it.scene ∈ scenes := by
  have := (sortItems_perm w (initialItems env scenes)).mem_iff.mp h
  rcases List.mem_map.mp this with ⟨s, hs, hmk⟩
  rw [← hmk]
  exact hs

/-! ### Claim C4 (code bug): empty pool, no seed -/

/-- C4: the claim states that `constructFeed` on an empty pool with no
`initialScene` returns an empty feed without raising.  The code instead
evaluates `remainingScenes.shift()!.scene` with `remainingScenes = []`:
`shift()` yields `undefined`, the `!` is a compile-time-only assertion, and
the `.scene` access throws a `TypeError` at run time (modelled as
`Except.error ()`).  This theorem evaluates the embedded code at the
failing input. -/
theorem constructFeed_empty_pool_error :
    constructFeed envZero
      { scenes := [], initialScene := none, weights := none,
        firstNDistinctHandles := none, size := none } = .error () := by decide

/-! ### Claim C5 (code bug): all-zero popularity -/

/-- C5: the claim (and the spec) require the popularity component to
default to 0 for every candidate when the pool's maximum popularity is 0.
The code computes `p / maxPopularity` with no guard, which is `0/0 = NaN`
in JavaScript: on a pool of two scenes with `likes = impressions = 0`,
every assigned popularity component is `NaN`, not 0.  (`initialItems` is
exactly the candidate-construction step of `constructFeed`.) -/
theorem constructFeed_zero_popularity_nan :
    maxPopularity [sceneZero, sceneZeroB] = JSNum.num 0 ∧
    (initialItems envZero [sceneZero, sceneZeroB]).map
        (fun it => it.popularityComponent) = [JSNum.nan, JSNum.nan] := by decide

/-! ### Claim C2: seed placement -/

/-- C2: when `initialScene` is supplied (and present in the pool), it is
feed position 0; no scene with its `_id` appears later (every such pool
entry is filtered out of the scorable pool), and its publisher starts with
occurrence count 1 in the per-handle counts. -/
theorem constructFeed_seed_placement (env : Env) (params : FeedConstructionParams)
    (initial : MongoScene) (feed : Feed)
    (hinit : params.initialScene = some initial)
    (hpresent : ∃ s ∈ params.scenes, s._id = initial._id)
    (hok : constructFeed env params = .ok feed) :
    feed.head? = some initial ∧
    (∀ s ∈ feed.tail, s._id ≠ initial._id) ∧
    (∀ s ∈ scorableScenes params, s._id ≠ initial._id) ∧
    hcSet hcEmpty initial.handle_id 1 initial.handle_id = some 1 := by
  have hscorable : ∀ s ∈ scorableScenes params, s._id ≠ initial._id := by
    intro s hs
    unfold scorableScenes at hs
    rw [hinit] at hs
    dsimp only at hs
    have := (List.mem_filter.mp hs).2
    simpa using this
  rw [constructFeed_some_eq env params initial hinit] at hok
  rcases feedLoop_shape hok with ⟨ext, hout, hext⟩
  subst hout
  refine ⟨rfl, ?_, hscorable, by simp [hcSet, hcEmpty]⟩
  intro s hs
  have hs2 : s ∈ ext := hs
  rcases hext s hs2 with ⟨it, hit, hsc⟩
  have := mem_sortItems_initialItems hit
  rw [hsc] at this
  exact hscorable s this

/-! ### Sortedness of the stable sort (local totality/transitivity) -/

/-- `orderedInsert` preserves pairwise sortedness when the relation is
total and transitive on the elements involved (the comparator relation is
not globally transitive in the presence of `NaN` scores, so the standard
global-instance lemma does not apply). -/
theorem pairwise_orderedInsert_of {α : Type} (r : α → α → Prop) [DecidableRel r]
    (P : α → Prop)
    (htot : ∀ a b, P a → P b → r a b ∨ r b a)
    (htr : ∀ a b c, P a → P b → P c → r a b → r b c → r a c)
    (ys : List α) (x : α) (hx : P x) (hPys : ∀ y ∈ ys, P y)
    (hpw : ys.Pairwise r) : (List.orderedInsert r x ys).Pairwise r := by
  induction ys with
  | nil => simp
  | cons y ys ih =>
    rcases List.pairwise_cons.mp hpw with ⟨hy, hpys⟩
    by_cases hr : r x y
    · rw [List.orderedInsert, if_pos hr]
      refine List.pairwise_cons.mpr ⟨?_, hpw⟩
      intro z hz
      rcases List.mem_cons.mp hz with rfl | hz
      · exact hr
      · exact htr x y z hx (hPys y (by simp)) (hPys z (by simp [hz])) hr (hy z hz)
    · rw [List.orderedInsert, if_neg hr]
      refine List.pairwise_cons.mpr ⟨?_, ?_⟩
      · intro z hz
        rcases (List.mem_orderedInsert r).mp hz with heq | hz
        · rw [heq]
          rcases htot x y hx (hPys y (by simp)) with hxy | hyx
          · exact absurd hxy hr
          · exact hyx
        · exact hy z hz
      · exact ih (fun y2 hy2 => hPys y2 (by simp [hy2])) hpys

theorem pairwise_insertionSort_of {α : Type} (r : α → α → Prop) [DecidableRel r]
    (P : α → Prop)
    (htot : ∀ a b, P a → P b → r a b ∨ r b a)
    (htr : ∀ a b c, P a → P b → P c → r a b → r b c → r a c)
    (l : List α) (hP : ∀ x ∈ l, P x) : (l.insertionSort r).Pairwise r := by
  induction l with
  | nil => simp
  | cons x xs ih =>
    rw [List.insertionSort]
    refine pairwise_orderedInsert_of r P htot htr _ x (hP x (by simp)) ?_
      (ih (fun y hy => hP y (by simp [hy])))
    intro y hy
    have : y ∈ xs := (List.perm_insertionSort r xs).mem_iff.mp hy
    exact hP y (by simp [this])

/-! ### Score arithmetic on real (non-NaN) items -/

theorem score_num {w : ScoreWeights} {x : FeedSortingItem}
    {qp qd qv qt : ℚ}
    (hp : x.popularityComponent = JSNum.num qp)
    (hd : x.distanceComponent = JSNum.num qd)
    (hv : x.varietyComponent = JSNum.num qv)
    (ht : x.timeComponent = JSNum.num qt) :
    score x w = JSNum.num
      (w.time * qt + w.popularity * qp + w.distance * qd + w.variety * qv) := by
  rw [score, hp, hd, hv, ht]
  rfl

theorem itemLe_of_num {w : ScoreWeights} {a b : FeedSortingItem} {qa qb : ℚ}
    (ha : score a w = JSNum.num qa) (hb : score b w = JSNum.num qb) :
    itemLe w a b ↔ qb ≤ qa := by
  rw [itemLe, ha, hb]
  show (decide ((0:ℚ) < qb + -qa) = false) ↔ qb ≤ qa
  rw [decide_eq_false_iff_not]
  constructor
  · intro h; linarith [not_lt.mp h]
  · intro h; intro hc; linarith

/-- The first fresh item of a `Pairwise r`-sorted list is `r`-maximal among
all fresh items of the list. -/
theorem pickFirstFresh_best {counts : HandleCounts} {l : List FeedSortingItem}
    {it : FeedSortingItem} {rest : List FeedSortingItem}
    {r : FeedSortingItem → FeedSortingItem → Prop}
    (hpw : l.Pairwise r) (hrefl : ∀ x ∈ l, r x x)
    (h : pickFirstFresh counts l = some (it, rest)) :
    ∀ x ∈ l, hcMem counts x.scene.handle_id = false → r it x := by
  rcases pickFirstFresh_split h with ⟨pre, suf, hl, -, -, hpre⟩
  subst hl
  intro x hx hfx
  rcases List.mem_append.mp hx with hx | hx
  · have := hpre x hx
    rw [hfx] at this
    cases this
  · rcases List.mem_cons.mp hx with rfl | hx
    · exact hrefl x (by simp)
    · rcases List.pairwise_append.mp hpw with ⟨-, hits, -⟩
      exact (List.pairwise_cons.mp hits).1 x hx

/-- In the diversity window, a successful round is exactly a
`pickFirstFresh` on the score-sorted updated candidates. -/
theorem nextScene_window_pick {env : Env} {w : ScoreWeights} {fN : ℕ}
    {items : List FeedSortingItem} {feed : Feed} {counts : HandleCounts}
    {mr s : MongoScene} {its2 : List FeedSortingItem} {c2 : HandleCounts}
    (hlast : feed.getLast? = some mr) (hwin : feed.length < fN)
    (h : nextScene env w fN items feed counts = .ok (some (s, its2, c2))) :
    ∃ it rest,
      pickFirstFresh counts
        (sortItems w (items.map (updateComponents env counts mr))) = some (it, rest) ∧
      s = it.scene ∧ its2 = rest ∧ c2 = hcSet counts it.scene.handle_id 1 := by
  unfold nextScene at h
  by_cases hlen : items.length = 0
  · rw [if_pos hlen] at h; cases h
  · rw [if_neg hlen, hlast] at h
    dsimp only at h
    rw [if_pos hwin] at h
    cases hpick : pickFirstFresh counts
        (sortItems w (items.map (updateComponents env counts mr))) with
    | none => rw [hpick] at h; cases h
    | some p =>
      rcases p with ⟨item, rest⟩
      rw [hpick] at h
      simp only [Except.ok.injEq, Option.some.injEq, Prod.mk.injEq] at h
      rcases h with ⟨hs, hits2, hc2⟩
      exact ⟨item, rest, rfl, hs.symm, hits2.symm, hc2.symm⟩

/-! ### Claim C1: diversity window -/

/-- C1: (i) in any feed returned by `constructFeed`, the first
`min(length, firstNDistinctHandles)` items have pairwise-distinct
publishers; (ii) while the feed is below `firstNDistinctHandles`,
`nextScene` returns `null` (placing nothing, ending construction) exactly
when every remaining candidate's publisher is already present; (iii) a
successful window round selects precisely the first candidate of the
score-sorted list whose publisher is not yet present — which, whenever the
stored intrinsic components are real numbers (no `NaN`), is a
highest-composite-score candidate among all not-yet-present publishers. -/
theorem constructFeed_diversity_window :
    (∀ (env : Env) (params : FeedConstructionParams) (feed : Feed),
      constructFeed env params = .ok feed →
      ((feed.take (params.firstNDistinctHandles.getD 5)).map
          (fun t => t.handle_id)).Nodup)
    ∧
    (∀ (env : Env) (w : ScoreWeights) (fN : ℕ) (items : List FeedSortingItem)
        (feed : Feed) (counts : HandleCounts),
      feed ≠ [] → feed.length < fN →
      (nextScene env w fN items feed counts = .ok none ↔
        ∀ it ∈ items, hcMem counts it.scene.handle_id = true))
    ∧
    (∀ (env : Env) (w : ScoreWeights) (fN : ℕ) (items : List FeedSortingItem)
        (feed : Feed) (counts : HandleCounts) (mr s : MongoScene)
        (its2 : List FeedSortingItem) (c2 : HandleCounts),
      feed.getLast? = some mr → feed.length < fN →
      nextScene env w fN items feed counts = .ok (some (s, its2, c2)) →
      ∃ it rest,
        pickFirstFresh counts
          (sortItems w (items.map (updateComponents env counts mr)))
            = some (it, rest) ∧
        s = it.scene ∧ its2 = rest ∧
        c2 = hcSet counts it.scene.handle_id 1 ∧
        hcMem counts it.scene.handle_id = false ∧
        ((∀ x ∈ items, (∃ qp, x.popularityComponent = JSNum.num qp) ∧
            (∃ qt, x.timeComponent = JSNum.num qt)) →
          ∀ x ∈ sortItems w (items.map (updateComponents env counts mr)),
            hcMem counts x.scene.handle_id = false → itemLe w it x)) := by
  refine ⟨?_, ?_, ?_⟩
  · intro env params feed hok
    cases hinit : params.initialScene with
    | some initial =>
      rw [constructFeed_some_eq env params initial hinit] at hok
      refine feedLoop_window ?_ ?_ hok
      · intro t ht
        rcases List.mem_singleton.mp ht with rfl
        simp [hcMem, hcSet]
      · exact ((List.take_sublist _ _).map _).nodup (List.nodup_singleton _)
    | none =>
      rw [constructFeed_none_eq env params hinit] at hok
      cases hsorted : sortItems DEFAULT_WEIGHTS (initialItems env (scorableScenes params)) with
      | nil => rw [hsorted] at hok; cases hok
      | cons first rest =>
        rw [hsorted] at hok
        dsimp only at hok
        refine feedLoop_window ?_ ?_ hok
        · intro t ht
          rcases List.mem_singleton.mp ht with rfl
          simp [hcMem, hcSet]
        · exact ((List.take_sublist _ _).map _).nodup (List.nodup_singleton _)
  · intro env w fN items feed counts hfeed hwin
    exact nextScene_none_iff hfeed hwin
  · intro env w fN items feed counts mr s its2 c2 hlast hwin h
    rcases nextScene_window_pick hlast hwin h with ⟨it, rest, hpick, hs, hits2, hc2⟩
    have hfresh := (pickFirstFresh_split hpick).choose_spec.choose_spec.2.2.1
    refine ⟨it, rest, hpick, hs, hits2, hc2, hfresh, ?_⟩
    intro hreal
    have hPmap : ∀ x ∈ items.map (updateComponents env counts mr),
        ∃ q, score x w = JSNum.num q := by
      intro x hx
      rcases List.mem_map.mp hx with ⟨y, hy, hupd⟩
      rcases hreal y hy with ⟨⟨qp, hqp⟩, ⟨qt, hqt⟩⟩
      have h1 : x.popularityComponent = JSNum.num qp := by rw [← hupd]; exact hqp
      have h2 : x.distanceComponent
          = JSNum.num (distanceComponent env (distanceBetween env mr y.scene)) := by
        rw [← hupd]; rfl
      have h3 : x.varietyComponent
          = JSNum.num (handleCountComponent env
              ((hcGet counts y.scene.handle_id : ℕ) : ℚ)) := by
        rw [← hupd]; rfl
      have h4 : x.timeComponent = JSNum.num qt := by rw [← hupd]; exact hqt
      exact ⟨_, score_num h1 h2 h3 h4⟩
    have hPsorted : ∀ x ∈ sortItems w (items.map (updateComponents env counts mr)),
        ∃ q, score x w = JSNum.num q := by
      intro x hx
      exact hPmap x ((sortItems_perm _ _).mem_iff.mp hx)
    have htot : ∀ a b : FeedSortingItem, (∃ q, score a w = JSNum.num q) →
        (∃ q, score b w = JSNum.num q) → itemLe w a b ∨ itemLe w b a := by
      rintro a b ⟨qa, ha⟩ ⟨qb, hb⟩
      rcases le_total qb qa with hle | hle
      · exact Or.inl ((itemLe_of_num ha hb).mpr hle)
      · exact Or.inr ((itemLe_of_num hb ha).mpr hle)
    have htr : ∀ a b c : FeedSortingItem, (∃ q, score a w = JSNum.num q) →
        (∃ q, score b w = JSNum.num q) → (∃ q, score c w = JSNum.num q) →
        itemLe w a b → itemLe w b c → itemLe w a c := by
      rintro a b c ⟨qa, ha⟩ ⟨qb, hb⟩ ⟨qc, hc⟩ hab hbc
      have h1 := (itemLe_of_num ha hb).mp hab
      have h2 := (itemLe_of_num hb hc).mp hbc
      exact (itemLe_of_num ha hc).mpr (le_trans h2 h1)
    have hpw : (sortItems w (items.map (updateComponents env counts mr))).Pairwise
        (itemLe w) :=
      pairwise_insertionSort_of _ (fun x => ∃ q, score x w = JSNum.num q)
        htot htr _ hPmap
    have hrefl : ∀ x ∈ sortItems w (items.map (updateComponents env counts mr)),
        itemLe w x x := by
      intro x hx
      rcases hPsorted x hx with ⟨q, hq⟩
      exact (itemLe_of_num hq hq).mpr le_rfl
    exact pickFirstFresh_best hpw hrefl hpick

/-! ### Claim C3: size bound -/

/-- The set of handle ids appearing among a list of scenes. -/
def handlesOfScenes (l : List MongoScene) : Finset ℕ :=
  (l.map (fun s => s.handle_id)).toFinset

/-- The number of scenes available for placement (the seed plus the
scorable pool). -/
def availableCount (params : FeedConstructionParams) : ℕ :=
  match params.initialScene with
  | some _ => 1 + (scorableScenes params).length
  | none => params.scenes.length

/-- The distinct publishers available for placement. -/
def poolHandles (params : FeedConstructionParams) : Finset ℕ :=
  match params.initialScene with
  | some initial => insert initial.handle_id (handlesOfScenes (scorableScenes params))
  | none => handlesOfScenes params.scenes

theorem itemHandles_sortItems_initialItems (w : ScoreWeights) (env : Env)
    (scenes : List MongoScene) :
    itemHandles (sortItems w (initialItems env scenes)) = handlesOfScenes scenes := by
  unfold itemHandles handlesOfScenes
  have h1 := (sortItems_perm w (initialItems env scenes)).map
    (fun it => it.scene.handle_id)
  have h2 : (initialItems env scenes).map (fun it => it.scene.handle_id)
      = scenes.map (fun s => s.handle_id) := by
    unfold initialItems
    simp only [List.map_map]
    rfl
  rw [h2] at h1
  exact perm_toFinset h1

theorem handlesOfScenes_card_le (l : List MongoScene) :
    (handlesOfScenes l).card ≤ l.length := by
  unfold handlesOfScenes
  calc (l.map (fun s => s.handle_id)).toFinset.card
      ≤ (l.map (fun s => s.handle_id)).length := List.toFinset_card_le _
    _ = l.length := List.length_map _ _

theorem nextScene_none_cases {env : Env} {w : ScoreWeights} {fN : ℕ}
    {items : List FeedSortingItem} {feed : Feed} {counts : HandleCounts}
    (h : nextScene env w fN items feed counts = .ok none) :
    items = [] ∨ (feed.length < fN ∧
      ∀ it ∈ items, hcMem counts it.scene.handle_id = true) := by
  unfold nextScene at h
  by_cases hlen : items.length = 0
  · exact Or.inl (List.length_eq_zero.mp hlen)
  · rw [if_neg hlen] at h
    cases hlast : feed.getLast? with
    | none => rw [hlast] at h; cases h
    | some mr =>
      rw [hlast] at h
      dsimp only at h
      by_cases hwin : feed.length < fN
      · rw [if_pos hwin] at h
        cases hpick : pickFirstFresh counts
            (sortItems w (items.map (updateComponents env counts mr))) with
        | none =>
          refine Or.inr ⟨hwin, ?_⟩
          have hall := pickFirstFresh_none_iff.mp hpick
          intro it hit
          have hperm := sortItems_perm w (items.map (updateComponents env counts mr))
          have : updateComponents env counts mr it ∈
              sortItems w (items.map (updateComponents env counts mr)) :=
            hperm.mem_iff.mpr (List.mem_map_of_mem _ hit)
          exact hall (updateComponents env counts mr it) this
        | some p =>
          rcases p with ⟨c, cs⟩
          rw [hpick] at h
          cases h
      · rw [if_neg hwin] at h
        cases hsorted : sortItems w (items.map (updateComponents env counts mr)) with
        | nil =>
          have := sortItems_length w (items.map (updateComponents env counts mr))
          rw [hsorted] at this
          simp only [List.length_nil, List.length_map] at this
          exact absurd this.symm hlen
        | cons item rest => rw [hsorted] at h; cases h

/-- Exactness of the loop: with enough candidates, enough distinct
publishers for the diversity window, and a nonempty feed already below the
target size, the loop fills the feed to exactly `N` items. -/
theorem feedLoop_exact {env : Env} {w : ScoreWeights} {fN N : ℕ} :
    ∀ {fuel : ℕ} {items : List FeedSortingItem} {counts : HandleCounts} {feed : Feed},
      fuel = items.length →
      feed ≠ [] →
      feed.length ≤ N →
      N ≤ feed.length + items.length →
      (∀ x, hcMem counts x = true ↔ x ∈ handlesOfScenes feed) →
      min N fN ≤ ((handlesOfScenes feed) ∪ (itemHandles items)).card →
      ∃ out, feedLoop env w fN (some N) fuel items counts feed = .ok out ∧
        out.length = N := by
  intro fuel
  induction fuel with
  | zero =>
    intro items counts feed hfuel hne hle hge hcnt hcard
    have : items = [] := List.length_eq_zero.mp hfuel.symm
    subst this
    simp only [List.length_nil, Nat.add_zero] at hge
    exact ⟨feed, by simp [feedLoop], by omega⟩
  | succ fuel ih =>
    intro items counts feed hfuel hne hle hge hcnt hcard
    by_cases hN : feed.length = N
    · have hsz : sizeAllows (some N) feed.length = false := by
        simp [sizeAllows, hN]
      refine ⟨feed, ?_, hN⟩
      simp only [feedLoop]
      rw [if_neg (by simp [hsz])]
    · have hlt : feed.length < N := by omega
      have hsz : sizeAllows (some N) feed.length = true := by
        simp [sizeAllows, hlt]
      rcases @nextScene_ok_of_ne_nil env w fN items feed counts hne with ⟨r, hr⟩
      cases r with
      | none =>
        exfalso
        rcases nextScene_none_cases hr with hnil | ⟨hwin, hall⟩
        · rw [hnil] at hfuel
          simp at hfuel
        · have hsub : itemHandles items ⊆ handlesOfScenes feed := by
            intro x hx
            unfold itemHandles at hx
            rcases List.mem_map.mp (List.mem_toFinset.mp hx) with ⟨it, hit, hh⟩
            rw [← hh]
            exact (hcnt it.scene.handle_id).mp (hall it hit)
          have hunion : handlesOfScenes feed ∪ itemHandles items
              = handlesOfScenes feed := Finset.union_eq_left.mpr hsub
          rw [hunion] at hcard
          have := handlesOfScenes_card_le feed
          omega
      | some v =>
        rcases v with ⟨s, its2, c2⟩
        rcases nextScene_some hr with ⟨-, hlen2, -, hhandles, hc2, -⟩
        have hne2 : feed ++ [s] ≠ [] := by simp
        have hcnt2 : ∀ x, hcMem c2 x = true ↔ x ∈ handlesOfScenes (feed ++ [s]) := by
          intro x
          rw [hc2 x]
          unfold handlesOfScenes
          simp only [List.map_append, List.toFinset_append, List.map_singleton,
            List.toFinset_cons, List.toFinset_nil, Finset.mem_union, Finset.mem_insert,
            Finset.not_mem_empty, or_false]
          rw [hcnt x]
          unfold handlesOfScenes
          tauto
        have hseteq : handlesOfScenes (feed ++ [s]) ∪ itemHandles its2
            = handlesOfScenes feed ∪ itemHandles items := by
          rw [hhandles]
          unfold handlesOfScenes
          simp only [List.map_append, List.toFinset_append, List.map_singleton,
            List.toFinset_cons, List.toFinset_nil]
          ext x
          simp only [Finset.mem_union, Finset.mem_insert, Finset.not_mem_empty, or_false]
          tauto
        have hf2 : fuel = its2.length := by omega
        have hle2 : (feed ++ [s]).length ≤ N := by
          simp only [List.length_append, List.length_singleton]
          omega
        have hge2 : N ≤ (feed ++ [s]).length + its2.length := by
          simp only [List.length_append, List.length_singleton]
          omega
        have hcard2 : min N fN
            ≤ ((handlesOfScenes (feed ++ [s])) ∪ (itemHandles its2)).card := by
          rw [hseteq]
          exact hcard
        rcases ih hf2 hne2 hle2 hge2 hcnt2 hcard2 with ⟨out, hout, houtlen⟩
        refine ⟨out, ?_, houtlen⟩
        simp only [feedLoop]
        rw [if_pos hsz, hr]
        dsimp only
        exact hout

/-- C3 counterexample: with `size = 0` and an `initialScene`, the seed is
placed *before* the size check, so the returned feed has length 1 > 0.
(The same happens with no seed and a nonempty pool: the first scene is
shifted into the feed unconditionally.)  The claim "length at most N for
every natural N" therefore fails at N = 0. -/
theorem constructFeed_size_bound_counterexample :
    constructFeed envZero
      { scenes := [], initialScene := some sceneZero, weights := none,
        firstNDistinctHandles := none, size := some 0 } = .ok [sceneZero] ∧
    ¬ (([sceneZero] : Feed).length ≤ 0) := by decide

/-- C3 (amended): with `size = some N`, `constructFeed` returns a feed of
length at most `max N 1` (the initial placement happens before the size
check, so `N = 0` still yields one item when a seed or a nonempty pool is
given), and of length exactly `N` whenever `N ≥ 1`, the pool (plus seed)
holds at least `N` scenes, and at least `min N firstNDistinctHandles`
distinct publishers are available (so the diversity window cannot force
early termination). -/
theorem constructFeed_size_bound_amended (env : Env)
    (params : FeedConstructionParams) (N : ℕ) (hsize : params.size = some N) :
    (∀ feed, constructFeed env params = .ok feed → feed.length ≤ max N 1) ∧
    (1 ≤ N → N ≤ availableCount params →
      min N (params.firstNDistinctHandles.getD 5) ≤ (poolHandles params).card →
      ∃ feed, constructFeed env params = .ok feed ∧ feed.length = N) := by
  constructor
  · intro feed hok
    cases hinit : params.initialScene with
    | some initial =>
      rw [constructFeed_some_eq env params initial hinit, hsize] at hok
      have := feedLoop_length_le hok
      simpa using this
    | none =>
      rw [constructFeed_none_eq env params hinit] at hok
      cases hsorted : sortItems DEFAULT_WEIGHTS (initialItems env (scorableScenes params)) with
      | nil => rw [hsorted] at hok; cases hok
      | cons first rest =>
        rw [hsorted] at hok
        dsimp only at hok
        rw [hsize] at hok
        have := feedLoop_length_le hok
        simpa using this
  · intro hN havail hcard
    cases hinit : params.initialScene with
    | some initial =>
      rw [constructFeed_some_eq env params initial hinit, hsize]
      have hcnt : ∀ x, hcMem (hcSet hcEmpty initial.handle_id 1) x = true ↔
          x ∈ handlesOfScenes [initial] := by
        intro x
        unfold handlesOfScenes
        rw [hcMem_hcSet]
        simp [hcMem, hcEmpty]
      have havail2 : availableCount params = 1 + (scorableScenes params).length := by
        unfold availableCount
        rw [hinit]
      have hlenitems : (sortItems DEFAULT_WEIGHTS
          (initialItems env (scorableScenes params))).length
          = (scorableScenes params).length := by
        rw [sortItems_length]
        unfold initialItems
        rw [List.length_map]
      have hpool : handlesOfScenes [initial] ∪
          itemHandles (sortItems DEFAULT_WEIGHTS (initialItems env (scorableScenes params)))
          = poolHandles params := by
        rw [itemHandles_sortItems_initialItems]
        unfold poolHandles
        rw [hinit]
        unfold handlesOfScenes
        ext x
        simp
      refine feedLoop_exact rfl (by simp) (by simpa using hN) ?_ hcnt ?_
      · simp only [List.length_singleton]
        rw [hlenitems]
        omega
      · rw [hpool]
        exact hcard
    | none =>
      rw [constructFeed_none_eq env params hinit]
      have havail2 : availableCount params = params.scenes.length := by
        unfold availableCount
        rw [hinit]
      have hscor : scorableScenes params = params.scenes := by
        unfold scorableScenes
        rw [hinit]
      have hlensort : (sortItems DEFAULT_WEIGHTS
          (initialItems env (scorableScenes params))).length
          = params.scenes.length := by
        rw [sortItems_length]
        unfold initialItems
        rw [List.length_map, hscor]
      cases hsorted : sortItems DEFAULT_WEIGHTS (initialItems env (scorableScenes params)) with
      | nil =>
        exfalso
        rw [hsorted] at hlensort
        simp only [List.length_nil] at hlensort
        omega
      | cons first rest =>
        dsimp only
        rw [hsize]
        have hcnt : ∀ x, hcMem (hcSet hcEmpty first.scene.handle_id 1) x = true ↔
            x ∈ handlesOfScenes [first.scene] := by
          intro x
          unfold handlesOfScenes
          rw [hcMem_hcSet]
          simp [hcMem, hcEmpty]
        have hlen2 : rest.length + 1 = params.scenes.length := by
          rw [hsorted] at hlensort
          simp only [List.length_cons] at hlensort
          omega
        have hpool : handlesOfScenes [first.scene] ∪ itemHandles rest
            = poolHandles params := by
          have h1 : itemHandles (sortItems DEFAULT_WEIGHTS
              (initialItems env (scorableScenes params))) = poolHandles params := by
            rw [itemHandles_sortItems_initialItems, hscor]
            unfold poolHandles
            rw [hinit]
          rw [hsorted] at h1
          unfold itemHandles at h1
          simp only [List.map_cons, List.toFinset_cons] at h1
          rw [← h1]
          unfold handlesOfScenes itemHandles
          ext x
          simp
        refine feedLoop_exact rfl (by simp) (by simpa using hN) ?_ hcnt ?_
        · simp only [List.length_singleton]
          omega
        · rw [hpool]
          exact hcard

/-- C3 witness: a concrete instance discharging the amended theorem's
hypotheses (two scenes from distinct publishers, `size = 2`). -/
theorem constructFeed_size_bound_witness :
    (∀ feed, constructFeed envZero
        { scenes := [sceneZero, scenePopular], initialScene := none,
          weights := none, firstNDistinctHandles := none, size := some 2 }
        = .ok feed → feed.length ≤ max 2 1) ∧
    (∃ feed, constructFeed envZero
        { scenes := [sceneZero, scenePopular], initialScene := none,
          weights := none, firstNDistinctHandles := none, size := some 2 }
        = .ok feed ∧ feed.length = 2) := by
  have h := constructFeed_size_bound_amended envZero
    { scenes := [sceneZero, scenePopular], initialScene := none,
      weights := none, firstNDistinctHandles := none, size := some 2 } 2 rfl
  exact ⟨h.1, h.2 (by decide) (by decide) (by decide)⟩

/-- C1 witness: the three parts of the diversity-window theorem applied at
concrete inputs (a three-scene pool; an empty candidate list in the window;
a one-candidate window round seeded with a different publisher). -/
theorem constructFeed_diversity_window_witness :
    ((([scenePopular, sceneThird] : Feed).take 5).map (fun t => t.handle_id)).Nodup
    ∧ (nextScene envZero DEFAULT_WEIGHTS 5 [] [sceneZero] hcEmpty = .ok none ↔
        ∀ it ∈ ([] : List FeedSortingItem), hcMem hcEmpty it.scene.handle_id = true)
    ∧ (∃ it rest,
        pickFirstFresh (hcSet hcEmpty scenePopular.handle_id 1)
          (sortItems DEFAULT_WEIGHTS
            ((initialItems envZero [sceneZero]).map
              (updateComponents envZero (hcSet hcEmpty scenePopular.handle_id 1)
                scenePopular))) = some (it, rest) ∧
        sceneZero = it.scene ∧ ([] : List FeedSortingItem) = rest ∧
        hcSet (hcSet hcEmpty scenePopular.handle_id 1) sceneZero.handle_id 1
          = hcSet (hcSet hcEmpty scenePopular.handle_id 1) it.scene.handle_id 1 ∧
        hcMem (hcSet hcEmpty scenePopular.handle_id 1) it.scene.handle_id = false ∧
        ((∀ x ∈ initialItems envZero [sceneZero],
            (∃ qp, x.popularityComponent = JSNum.num qp) ∧
            (∃ qt, x.timeComponent = JSNum.num qt)) →
          ∀ x ∈ sortItems DEFAULT_WEIGHTS
              ((initialItems envZero [sceneZero]).map
                (updateComponents envZero (hcSet hcEmpty scenePopular.handle_id 1)
                  scenePopular)),
            hcMem (hcSet hcEmpty scenePopular.handle_id 1) x.scene.handle_id = false →
            itemLe DEFAULT_WEIGHTS it x)) := by
  refine ⟨?_, ?_, ?_⟩
  · exact constructFeed_diversity_window.1 envZero
      { scenes := [sceneZero, scenePopular, sceneThird], initialScene := none,
        weights := none, firstNDistinctHandles := none, size := none }
      [scenePopular, sceneThird] (by decide)
  · exact constructFeed_diversity_window.2.1 envZero DEFAULT_WEIGHTS 5 []
      [sceneZero] hcEmpty (by simp) (by decide)
  · exact constructFeed_diversity_window.2.2 envZero DEFAULT_WEIGHTS 5
      (initialItems envZero [sceneZero]) [scenePopular]
      (hcSet hcEmpty scenePopular.handle_id 1) scenePopular sceneZero []
      (hcSet (hcSet hcEmpty scenePopular.handle_id 1) sceneZero.handle_id 1)
      rfl (by decide) rfl

/-- C2 witness: seed placement at a concrete two-scene pool containing the
seed. -/
theorem constructFeed_seed_placement_witness :
    ([sceneZero, scenePopular] : Feed).head? = some sceneZero ∧
    (∀ s ∈ ([sceneZero, scenePopular] : Feed).tail, s._id ≠ sceneZero._id) ∧
    (∀ s ∈ scorableScenes
        { scenes := [sceneZero, scenePopular], initialScene := some sceneZero,
          weights := none, firstNDistinctHandles := none, size := none },
      s._id ≠ sceneZero._id) ∧
    hcSet hcEmpty sceneZero.handle_id 1 sceneZero.handle_id = some 1 :=
  constructFeed_seed_placement envZero
    { scenes := [sceneZero, scenePopular], initialScene := some sceneZero,
      weights := none, firstNDistinctHandles := none, size := none }
    sceneZero [sceneZero, scenePopular] rfl
    ⟨sceneZero, by decide, rfl⟩ (by decide)

/-! ### Claim C9: nearby traversal -/

/-- Strictly decreasing measure of one `nearbyLoop` iteration: the queue
length plus, for every in-range unvisited cell, one plus its neighbor-list
length (a bound on the work it can still cause). -/
def nearbyMeasure (tess : MongoTessellation) (queue : List ℕ)
    (visited : Finset ℕ) : ℕ :=
  queue.length +
    ∑ i ∈ (Finset.range tess.neighbors.length) \ visited,
      (1 + (tess.neighbors.getD i []).length)

/-- Fuel faithfulness of `nearbyLoop`: above the measure, the fuel bound
never fires, so the `while` loop's semantics does not depend on it.  In
particular `nearbyFuel` (which bounds the initial measure) is always
enough. -/
theorem nearbyLoop_fuel_irrelevant {tess : MongoTessellation} {size : ℕ} :
    ∀ {fuel : ℕ} {queue : List ℕ} {visited : Finset ℕ} {sceneIDs : List ℕ},
      nearbyMeasure tess queue visited ≤ fuel →
      nearbyLoop tess size (fuel + 1) queue visited sceneIDs
        = nearbyLoop tess size fuel queue visited sceneIDs := by
  intro fuel
  induction fuel with
  | zero =>
    intro queue visited sceneIDs hm
    have hq : queue.length = 0 := by
      unfold nearbyMeasure at hm
      omega
    have hq2 : queue = [] := List.length_eq_zero.mp hq
    subst hq2
    conv_lhs => rw [nearbyLoop.eq_def]
    conv_rhs => rw [nearbyLoop.eq_def]
    dsimp only
    exact ite_self _
  | succ fuel ih =>
    intro queue visited sceneIDs hm
    conv_lhs => rw [nearbyLoop.eq_def]
    conv_rhs => rw [nearbyLoop.eq_def]
    dsimp only
    by_cases hsz : sceneIDs.length < size
    · rw [if_pos hsz, if_pos hsz]
      cases queue with
      | nil => rfl
      | cons q rest =>
        dsimp only
        by_cases hv : q ∈ visited
        · rw [if_pos hv, if_pos hv]
          refine ih ?_
          unfold nearbyMeasure at hm ⊢
          simp only [List.length_cons] at hm
          omega
        · rw [if_neg hv, if_neg hv]
          refine ih ?_
          unfold nearbyMeasure at hm ⊢
          simp only [List.length_cons] at hm
          by_cases hq : q < tess.neighbors.length
          · have hmem : q ∈ (Finset.range tess.neighbors.length) \ visited := by
              simp [Finset.mem_sdiff, Finset.mem_range, hq, hv]
            have hsd : (Finset.range tess.neighbors.length) \ insert q visited
                = ((Finset.range tess.neighbors.length) \ visited).erase q := by
              ext x
              simp only [Finset.mem_sdiff, Finset.mem_insert, Finset.mem_erase,
                Finset.mem_range]
              tauto
            have hsum := Finset.sum_erase_add
              ((Finset.range tess.neighbors.length) \ visited)
              (fun i => 1 + (tess.neighbors.getD i []).length) hmem
            dsimp only at hsum
            rw [hsd]
            simp only [List.length_append]
            omega
          · have hgd : tess.neighbors.getD q [] = [] :=
              List.getD_eq_default _ _ (by omega)
            have hsd : (Finset.range tess.neighbors.length) \ insert q visited
                = (Finset.range tess.neighbors.length) \ visited := by
              ext x
              simp only [Finset.mem_sdiff, Finset.mem_insert, Finset.mem_range]
              constructor
              · rintro ⟨hx, h2⟩; exact ⟨hx, fun hxv => h2 (Or.inr hxv)⟩
              · rintro ⟨hx, h2⟩
                refine ⟨hx, ?_⟩
                rintro (rfl | hxv)
                · omega
                · exact h2 hxv
            rw [hsd, hgd]
            simp only [List.length_append, List.length_nil]
            omega
    · rw [if_neg hsz, if_neg hsz]

/-- The loop only appends to the id list. -/
theorem nearbyLoop_extends {tess : MongoTessellation} {size : ℕ} :
    ∀ {fuel : ℕ} {queue : List ℕ} {visited : Finset ℕ} {sceneIDs : List ℕ},
      ∃ ext, nearbyLoop tess size fuel queue visited sceneIDs = sceneIDs ++ ext := by
  intro fuel
  induction fuel with
  | zero =>
    intro queue visited sceneIDs
    exact ⟨[], by rw [nearbyLoop.eq_def]; simp⟩
  | succ fuel ih =>
    intro queue visited sceneIDs
    rw [nearbyLoop.eq_def]
    dsimp only
    by_cases hsz : sceneIDs.length < size
    · rw [if_pos hsz]
      cases queue with
      | nil => exact ⟨[], by simp⟩
      | cons q rest =>
        dsimp only
        by_cases hv : q ∈ visited
        · rw [if_pos hv]; exact ih
        · rw [if_neg hv]
          rcases @ih (rest ++ tess.neighbors.getD q []) (insert q visited)
            (sceneIDs ++ [tess.scene_ids.getD q 0]) with ⟨ext, hext⟩
          exact ⟨tess.scene_ids.getD q 0 :: ext, by rw [hext]; simp⟩
    · rw [if_neg hsz]; exact ⟨[], by simp⟩

/-- Main invariant of `nearbyLoop`: the id list stays `seed ::` the scene
ids of the pairwise-distinct, in-range indices visited so far, and its
length stays within `max size 1`. -/
theorem nearbyLoop_spec {tess : MongoTessellation} {size : ℕ} {seed : ℕ}
    (hvalid : ∀ l ∈ tess.neighbors, ∀ i ∈ l, i < tess.scene_ids.length) :
    ∀ {fuel : ℕ} {queue : List ℕ} {visited : Finset ℕ} {done : List ℕ},
      (∀ q ∈ queue, q < tess.scene_ids.length) →
      done.Nodup →
      (∀ j ∈ done, j ∈ visited) →
      (∀ j ∈ done, j < tess.scene_ids.length) →
      (seed :: done.map (fun i => tess.scene_ids.getD i 0)).length ≤ max size 1 →
      ∃ done2 : List ℕ,
        nearbyLoop tess size fuel queue visited
            (seed :: done.map (fun i => tess.scene_ids.getD i 0))
          = seed :: done2.map (fun i => tess.scene_ids.getD i 0) ∧
        done2.Nodup ∧
        (∀ j ∈ done2, j < tess.scene_ids.length) ∧
        (seed :: done2.map (fun i => tess.scene_ids.getD i 0)).length ≤ max size 1 := by
  intro fuel
  induction fuel with
  | zero =>
    intro queue visited done hq hnd hdv hdlt hlen
    refine ⟨done, ?_, hnd, hdlt, hlen⟩
    rw [nearbyLoop.eq_def]
  | succ fuel ih =>
    intro queue visited done hq hnd hdv hdlt hlen
    rw [nearbyLoop.eq_def]
    dsimp only
    by_cases hsz : (seed :: done.map (fun i => tess.scene_ids.getD i 0)).length < size
    · rw [if_pos hsz]
      cases queue with
      | nil => exact ⟨done, rfl, hnd, hdlt, hlen⟩
      | cons q rest =>
        dsimp only
        by_cases hv : q ∈ visited
        · rw [if_pos hv]
          exact ih (fun x hx => hq x (by simp [hx])) hnd hdv hdlt hlen
        · rw [if_neg hv]
          have hqlt : q < tess.scene_ids.length := hq q (by simp)
          have hnd2 : (done ++ [q]).Nodup := by
            rw [List.nodup_append]
            refine ⟨hnd, List.nodup_singleton _, ?_⟩
            intro x hx
            simp only [List.mem_singleton]
            rintro rfl
            exact hv (hdv x hx)
          have heq : (seed :: done.map (fun i => tess.scene_ids.getD i 0))
              ++ [tess.scene_ids.getD q 0]
              = seed :: (done ++ [q]).map (fun i => tess.scene_ids.getD i 0) := by
            simp
          have hq2 : ∀ x ∈ rest ++ tess.neighbors.getD q [],
              x < tess.scene_ids.length := by
            intro x hx
            rcases List.mem_append.mp hx with hx | hx
            · exact hq x (by simp [hx])
            · by_cases hqn : q < tess.neighbors.length
              · have : tess.neighbors.getD q [] ∈ tess.neighbors := by
                  rw [List.getD_eq_getElem?_getD, List.getElem?_eq_getElem hqn]
                  exact List.getElem_mem _
                exact hvalid _ this x hx
              · rw [List.getD_eq_default _ _ (by omega)] at hx
                cases hx
          have hdv2 : ∀ j ∈ done ++ [q], j ∈ insert q visited := by
            intro j hj
            rcases List.mem_append.mp hj with hj | hj
            · exact Finset.mem_insert_of_mem (hdv j hj)
            · rcases List.mem_singleton.mp hj with rfl
              exact Finset.mem_insert_self _ _
          have hdlt2 : ∀ j ∈ done ++ [q], j < tess.scene_ids.length := by
            intro j hj
            rcases List.mem_append.mp hj with hj | hj
            · exact hdlt j hj
            · rcases List.mem_singleton.mp hj with rfl
              exact hqlt
          have hlen2 : (seed :: (done ++ [q]).map
              (fun i => tess.scene_ids.getD i 0)).length ≤ max size 1 := by
            have h1 : (seed :: (done ++ [q]).map
                (fun i => tess.scene_ids.getD i 0)).length = done.length + 2 := by
              simp
            have h2 : (seed :: done.map
                (fun i => tess.scene_ids.getD i 0)).length = done.length + 1 := by
              simp
            rw [h2] at hsz
            rw [h1]
            omega
          rw [heq]
          exact ih hq2 hnd2 hdv2 hdlt2 hlen2
    · rw [if_neg hsz]
      exact ⟨done, rfl, hnd, hdlt, hlen⟩

/-- A concrete two-cell tessellation (two scenes, mutual neighbors). -/
def tessTwoCells : MongoTessellation :=
  { name := "global", neighbors := [[1], [0]], polygons := [],
    scene_ids := [7, 8], points := [(0, 0), (3, 0)], last_updated := 0 }

/-- C9 counterexample: `nearbySceneIDs` pushes the seed once up front and
again when the seed's own index is dequeued (the seed's index is enqueued
but never pre-marked visited), so with the seed present and `k = 2` the
returned list is `[seed, seed]` — an id occurs twice.  And with `k = 0`
the list `[seed]` of length 1 exceeds `k`. -/
theorem nearbySceneIDs_bound_counterexample :
    nearbySceneIDs 7 tessTwoCells 2 = [7, 7] ∧
    ¬ (nearbySceneIDs 7 tessTwoCells 2).Nodup ∧
    nearbySceneIDs 7 tessTwoCells 0 = [7] ∧
    ¬ ((nearbySceneIDs 7 tessTwoCells 0).length ≤ 0) := by decide

/-- C9 (amended): `nearbySceneIDs(seed, tessellation, k)` always starts
with the seed and returns at most `max k 1` ids (one id even when
`k = 0`); provided the tessellation's `scene_ids` are pairwise distinct
and its neighbor lists index into them, the ids *after position 0* are
pairwise distinct — but when the seed is present in the tessellation and
`k ≥ 2`, position 1 repeats the seed id, so the full list does repeat an
id. -/
theorem nearbySceneIDs_bound_amended (tess : MongoTessellation) (seed size : ℕ)
    (hnodup : tess.scene_ids.Nodup)
    (hvalid : ∀ l ∈ tess.neighbors, ∀ i ∈ l, i < tess.scene_ids.length) :
    (nearbySceneIDs seed tess size).head? = some seed ∧
    (nearbySceneIDs seed tess size).length ≤ max size 1 ∧
    (nearbySceneIDs seed tess size).tail.Nodup ∧
    (∀ index, tess.scene_ids.findIdx? (fun id => id == seed) = some index →
      2 ≤ size →
      ∃ ext, nearbySceneIDs seed tess size = seed :: seed :: ext) := by
  have hmain : (nearbySceneIDs seed tess size).head? = some seed ∧
      (nearbySceneIDs seed tess size).length ≤ max size 1 ∧
      (nearbySceneIDs seed tess size).tail.Nodup := by
    unfold nearbySceneIDs
    cases hfind : tess.scene_ids.findIdx? (fun id => id == seed) with
    | none =>
      refine ⟨rfl, by simp, by simp⟩
    | some index =>
      dsimp only
      have hidx := List.findIdx?_eq_some_iff_findIdx_eq.mp hfind
      have hspec := @nearbyLoop_spec tess size seed hvalid (nearbyFuel tess)
        [index] ∅ []
        (by intro q hq; rcases List.mem_singleton.mp hq with rfl; omega)
        (List.nodup_nil) (by simp) (by simp) (by simp)
      rcases hspec with ⟨done2, heq, hnd2, hlt2, hlen2⟩
      simp only [List.map_nil] at heq
      rw [heq]
      refine ⟨rfl, by simpa using hlen2, ?_⟩
      show (done2.map (fun i => tess.scene_ids.getD i 0)).Nodup
      refine List.Nodup.map_on ?_ hnd2
      intro x hx y hy hxy
      have hxl := hlt2 x hx
      have hyl := hlt2 y hy
      rw [List.getD_eq_getElem?_getD, List.getD_eq_getElem?_getD,
        List.getElem?_eq_getElem hxl, List.getElem?_eq_getElem hyl] at hxy
      simp only [Option.getD_some] at hxy
      exact (List.Nodup.getElem_inj_iff hnodup).mp hxy
  refine ⟨hmain.1, hmain.2.1, hmain.2.2, ?_⟩
  intro index hfind hsize
  have hidx := List.findIdx?_eq_some_iff_findIdx_eq.mp hfind
  have hlt2 : index < tess.scene_ids.length := by omega
  have hbeq : (tess.scene_ids.get ⟨index, hlt2⟩ == seed) = true := by
    have := @List.findIdx_getElem _ (fun id => id == seed) tess.scene_ids
      (by rw [hidx.2]; omega)
    simpa [hidx.2] using this
  have hseedeq : tess.scene_ids.getD index 0 = seed := by
    rw [List.getD_eq_getElem?_getD, List.getElem?_eq_getElem hlt2]
    simpa using hbeq
  unfold nearbySceneIDs
  rw [hfind]
  dsimp only
  have hfuel : nearbyFuel tess
      = (tess.neighbors.length + (tess.neighbors.map List.length).sum) + 1 := by
    unfold nearbyFuel
    omega
  rw [hfuel, nearbyLoop.eq_def]
  dsimp only
  rw [if_pos (by simp only [List.length_singleton]; omega)]
  rw [if_neg (Finset.not_mem_empty index)]
  rcases @nearbyLoop_extends tess size
    (tess.neighbors.length + (tess.neighbors.map List.length).sum)
    ([] ++ tess.neighbors.getD index [])
    (insert index ∅)
    ([seed] ++ [tess.scene_ids.getD index 0]) with ⟨ext, hext⟩
  refine ⟨ext, ?_⟩
  rw [hext, hseedeq]
  rfl

/-! ### Claims C7, C8, C10: greedy cell search -/

/-- Complete analysis of the neighbor scan, generalized over the running
accumulator: either nothing improved (the accumulator is returned and no
scanned cell beats it), or the result records a scanned cell strictly
closer than the starting distance. -/
theorem findCellScan_go {α : Type} [LinearOrder α] (d : ℚ → ℚ → ℚ → ℚ → α)
    (tess : MongoTessellation) (ra dec : ℚ) :
    ∀ (ns : List ℕ) (acc : α × Option ℕ),
      (ns.foldl
          (fun acc i =>
            if cellDist d tess ra dec i < acc.1
            then (cellDist d tess ra dec i, some i) else acc) acc = acc ∧
        ∀ i ∈ ns, ¬ cellDist d tess ra dec i < acc.1) ∨
      (∃ j ∈ ns,
        (ns.foldl
          (fun acc i =>
            if cellDist d tess ra dec i < acc.1
            then (cellDist d tess ra dec i, some i) else acc) acc).2 = some j ∧
        (ns.foldl
          (fun acc i =>
            if cellDist d tess ra dec i < acc.1
            then (cellDist d tess ra dec i, some i) else acc) acc).1
          = cellDist d tess ra dec j ∧
        cellDist d tess ra dec j < acc.1) := by
  intro ns
  induction ns with
  | nil => intro acc; exact Or.inl ⟨rfl, by simp⟩
  | cons i ns ih =>
    intro acc
    simp only [List.foldl_cons]
    by_cases hi : cellDist d tess ra dec i < acc.1
    · rw [if_pos hi]
      rcases ih (cellDist d tess ra dec i, some i) with ⟨heq, hno⟩ | ⟨j, hj, h2, h1, hlt⟩
      · right
        exact ⟨i, by simp, by rw [heq], by rw [heq], hi⟩
      · right
        exact ⟨j, by simp [hj], h2, h1, lt_trans hlt hi⟩
    · rw [if_neg hi]
      rcases ih acc with ⟨heq, hno⟩ | ⟨j, hj, h2, h1, hlt⟩
      · left
        refine ⟨heq, ?_⟩
        intro x hx
        rcases List.mem_cons.mp hx with rfl | hx
        · exact hi
        · exact hno x hx
      · right
        exact ⟨j, by simp [hj], h2, h1, hlt⟩

theorem findCellStep_none {α : Type} [LinearOrder α] {d : ℚ → ℚ → ℚ → ℚ → α}
    {tess : MongoTessellation} {ra dec : ℚ} {cell : ℕ}
    (h : findCellStep d tess ra dec cell = none) :
    ∀ i ∈ tess.neighbors.getD cell [],
      ¬ cellDist d tess ra dec i < cellDist d tess ra dec cell := by
  unfold findCellStep findCellScan at h
  rcases findCellScan_go d tess ra dec (tess.neighbors.getD cell [])
      (cellDist d tess ra dec cell, none) with ⟨heq, hno⟩ | ⟨j, hj, h2, h1, hlt⟩
  · exact hno
  · rw [h2] at h
    cases h

theorem findCellStep_some {α : Type} [LinearOrder α] {d : ℚ → ℚ → ℚ → ℚ → α}
    {tess : MongoTessellation} {ra dec : ℚ} {cell j : ℕ}
    (h : findCellStep d tess ra dec cell = some j) :
    cellDist d tess ra dec j < cellDist d tess ra dec cell ∧
      j ∈ tess.neighbors.getD cell [] := by
  unfold findCellStep findCellScan at h
  rcases findCellScan_go d tess ra dec (tess.neighbors.getD cell [])
      (cellDist d tess ra dec cell, none) with ⟨heq, hno⟩ | ⟨j2, hj2, h2, h1, hlt⟩
  · rw [heq] at h
    cases h
  · rw [h2] at h
    cases h
    exact ⟨hlt, hj2⟩

/-- The termination measure of the descent: how many cells are strictly
closer to the query than the current one. -/
def closerCount {α : Type} [LinearOrder α] (d : ℚ → ℚ → ℚ → ℚ → α)
    (tess : MongoTessellation) (ra dec : ℚ) (cell : ℕ) : ℕ :=
  ((Finset.range tess.points.length).filter
    (fun j => cellDist d tess ra dec j < cellDist d tess ra dec cell)).card

theorem findCellStep_measure {α : Type} [LinearOrder α] {d : ℚ → ℚ → ℚ → ℚ → α}
    {tess : MongoTessellation} {ra dec : ℚ} {cell j : ℕ}
    (hvalid : ∀ l ∈ tess.neighbors, ∀ i ∈ l, i < tess.points.length)
    (h : findCellStep d tess ra dec cell = some j) :
    j < tess.points.length ∧
      closerCount d tess ra dec j < closerCount d tess ra dec cell := by
  rcases findCellStep_some h with ⟨hlt, hmem⟩
  have hj : j < tess.points.length := by
    by_cases hc : cell < tess.neighbors.length
    · have : tess.neighbors.getD cell [] ∈ tess.neighbors := by
        rw [List.getD_eq_getElem?_getD, List.getElem?_eq_getElem hc]
        exact List.getElem_mem _
      exact hvalid _ this j hmem
    · rw [List.getD_eq_default _ _ (by omega)] at hmem
      cases hmem
  refine ⟨hj, Finset.card_lt_card ?_⟩
  rw [Finset.ssubset_iff_of_subset]
  · exact ⟨j, by simp [Finset.mem_filter, Finset.mem_range, hj, hlt], by simp⟩
  · intro x hx
    simp only [Finset.mem_filter, Finset.mem_range] at hx ⊢
    exact ⟨hx.1, lt_trans hx.2 hlt⟩

/-- With fuel exceeding the measure, the descent reaches a fixpoint (a
cell with no strictly closer neighbor) and more fuel changes nothing. -/
theorem findCellLoop_fix {α : Type} [LinearOrder α] {d : ℚ → ℚ → ℚ → ℚ → α}
    {tess : MongoTessellation} {ra dec : ℚ}
    (hvalid : ∀ l ∈ tess.neighbors, ∀ i ∈ l, i < tess.points.length) :
    ∀ (fuel : ℕ) (cell : ℕ), closerCount d tess ra dec cell < fuel →
      findCellStep d tess ra dec (findCellLoop d tess ra dec fuel cell) = none ∧
      findCellLoop d tess ra dec (fuel + 1) cell
        = findCellLoop d tess ra dec fuel cell := by
  intro fuel
  induction fuel with
  | zero => intro cell hm; omega
  | succ fuel ih =>
    intro cell hm
    cases hstep : findCellStep d tess ra dec cell with
    | none =>
      constructor
      · show findCellStep d tess ra dec (findCellLoop d tess ra dec (fuel + 1) cell) = none
        rw [findCellLoop, hstep]
        exact hstep
      · rw [findCellLoop, hstep, findCellLoop, hstep]
    | some j =>
      rcases findCellStep_measure hvalid hstep with ⟨hjlt, hmeas⟩
      have hm2 : closerCount d tess ra dec j < fuel := by omega
      rcases ih j hm2 with ⟨hfix, hstable⟩
      constructor
      · show findCellStep d tess ra dec (findCellLoop d tess ra dec (fuel + 1) cell) = none
        rw [findCellLoop, hstep]
        exact hfix
      · show findCellLoop d tess ra dec (fuel + 1 + 1) cell
            = findCellLoop d tess ra dec (fuel + 1) cell
        rw [findCellLoop, hstep]
        conv_rhs => rw [findCellLoop, hstep]
        exact hstable

/-- The starting measure is below the number of cells whenever the start
index is in range. -/
theorem closerCount_lt {α : Type} [LinearOrder α] (d : ℚ → ℚ → ℚ → ℚ → α)
    (tess : MongoTessellation) (ra dec : ℚ) {cell : ℕ}
    (hcell : cell < tess.points.length) :
    closerCount d tess ra dec cell < tess.points.length := by
  unfold closerCount
  have hsub : (Finset.range tess.points.length).filter
      (fun j => cellDist d tess ra dec j < cellDist d tess ra dec cell)
      ⊆ (Finset.range tess.points.length).erase cell := by
    intro x hx
    simp only [Finset.mem_filter, Finset.mem_range] at hx
    rw [Finset.mem_erase]
    refine ⟨?_, by simp [Finset.mem_range, hx.1]⟩
    rintro rfl
    exact absurd hx.2 (lt_irrefl _)
  calc ((Finset.range tess.points.length).filter
        (fun j => cellDist d tess ra dec j < cellDist d tess ra dec cell)).card
      ≤ ((Finset.range tess.points.length).erase cell).card := Finset.card_le_card hsub
    _ < tess.points.length := by
        rw [Finset.card_erase_of_mem (by simp [Finset.mem_range, hcell])]
        simp only [Finset.card_range]
        omega

/-- C7: the cell returned by `findCell` is a local minimum of the greedy
descent — no index in its neighbor list is strictly closer to the query
than the cell itself.  (Holds for an arbitrary distance function, hence in
particular for the astro library's great-circle distance.) -/
theorem findCell_local_minimum {α : Type} [LinearOrder α]
    (d : ℚ → ℚ → ℚ → ℚ → α) (tess : MongoTessellation) (ra dec : ℚ)
    (hint : Option ℕ)
    (hpts : tess.points ≠ [])
    (hvalid : ∀ l ∈ tess.neighbors, ∀ i ∈ l, i < tess.points.length)
    (hhint : hint.getD 0 < tess.points.length) :
    ∀ i ∈ tess.neighbors.getD (findCell tess d ra dec hint) [],
      ¬ cellDist d tess ra dec i
        < cellDist d tess ra dec (findCell tess d ra dec hint) := by
  have hfix := (findCellLoop_fix hvalid tess.points.length (hint.getD 0)
    (closerCount_lt d tess ra dec hhint)).1
  exact findCellStep_none hfix

/-- The strictly decreasing distances along the visited trace. -/
theorem findCellTrace_le {α : Type} [LinearOrder α]
    {d : ℚ → ℚ → ℚ → ℚ → α} {tess : MongoTessellation} {ra dec : ℚ} :
    ∀ (fuel : ℕ) (cell : ℕ) (x : ℕ),
      x ∈ findCellTrace d tess ra dec fuel cell →
      cellDist d tess ra dec x ≤ cellDist d tess ra dec cell := by
  intro fuel
  induction fuel with
  | zero =>
    intro cell x hx
    rcases List.mem_singleton.mp hx with rfl
    exact le_rfl
  | succ fuel ih =>
    intro cell x hx
    rw [findCellTrace] at hx
    cases hstep : findCellStep d tess ra dec cell with
    | none =>
      rw [hstep] at hx
      rcases List.mem_singleton.mp hx with rfl
      exact le_rfl
    | some j =>
      rw [hstep] at hx
      rcases List.mem_cons.mp hx with rfl | hx
      · exact le_rfl
      · exact le_trans (ih j x hx) (le_of_lt (findCellStep_some hstep).1)

/-- No cell is ever visited twice: the visited trace is duplicate-free. -/
theorem findCellTrace_nodup {α : Type} [LinearOrder α]
    {d : ℚ → ℚ → ℚ → ℚ → α} {tess : MongoTessellation} {ra dec : ℚ} :
    ∀ (fuel : ℕ) (cell : ℕ), (findCellTrace d tess ra dec fuel cell).Nodup := by
  intro fuel
  induction fuel with
  | zero => intro cell; exact List.nodup_singleton _
  | succ fuel ih =>
    intro cell
    rw [findCellTrace]
    cases hstep : findCellStep d tess ra dec cell with
    | none => exact List.nodup_singleton _
    | some j =>
      refine List.nodup_cons.mpr ⟨?_, ih j⟩
      intro hmem
      have h1 := findCellTrace_le fuel j cell hmem
      have h2 := (findCellStep_some hstep).1
      exact absurd (lt_of_le_of_lt h1 h2) (lt_irrefl _)

/-- C10: termination of `findCell`.  Every move of the descent goes to a
strictly closer cell, so (for valid neighbor indices and an in-range
start) the loop visits no cell twice, reaches a fixpoint within
`points.length` iterations — the fuel with which `findCell` runs it — and
giving it any more fuel changes nothing. -/
theorem findCell_termination {α : Type} [LinearOrder α]
    (d : ℚ → ℚ → ℚ → ℚ → α) (tess : MongoTessellation) (ra dec : ℚ)
    (hint : Option ℕ)
    (hvalid : ∀ l ∈ tess.neighbors, ∀ i ∈ l, i < tess.points.length)
    (hhint : hint.getD 0 < tess.points.length) :
    (∀ cell j, findCellStep d tess ra dec cell = some j →
      cellDist d tess ra dec j < cellDist d tess ra dec cell) ∧
    (∀ extra, findCellLoop d tess ra dec (tess.points.length + extra) (hint.getD 0)
      = findCell tess d ra dec hint) ∧
    findCellStep d tess ra dec (findCell tess d ra dec hint) = none ∧
    (∀ fuel cell, (findCellTrace d tess ra dec fuel cell).Nodup) := by
  have hm := closerCount_lt d tess ra dec hhint
  refine ⟨fun cell j h => (findCellStep_some h).1, ?_, ?_, findCellTrace_nodup⟩
  · intro extra
    induction extra with
    | zero => rfl
    | succ extra ihe =>
      have hm2 : closerCount d tess ra dec (hint.getD 0)
          < tess.points.length + extra := by omega
      have hstable := (findCellLoop_fix hvalid (tess.points.length + extra)
        (hint.getD 0) hm2).2
      calc findCellLoop d tess ra dec (tess.points.length + (extra + 1)) (hint.getD 0)
          = findCellLoop d tess ra dec (tess.points.length + extra + 1) (hint.getD 0) := by
            rw [Nat.add_assoc]
        _ = findCellLoop d tess ra dec (tess.points.length + extra) (hint.getD 0) := hstable
        _ = findCell tess d ra dec hint := ihe
  · exact (findCellLoop_fix hvalid tess.points.length (hint.getD 0) hm).1

/-- C7/C10 witness fixture: a simple squared-offset distance (the theorems
hold for every distance function). -/
def sqDistQ (ra dec x y : ℚ) : ℚ := (ra - x) ^ 2 + (dec - y) ^ 2

/-- C7 witness: on the two-cell tessellation, the cell found for the query
at the first point has no strictly closer neighbor (instantiated at its
single neighbor, index 1). -/
theorem findCell_local_minimum_witness :
    ¬ cellDist sqDistQ tessTwoCells 0 0 1
      < cellDist sqDistQ tessTwoCells 0 0 (findCell tessTwoCells sqDistQ 0 0 none) :=
  findCell_local_minimum sqDistQ tessTwoCells 0 0 none (by decide) (by decide)
    (by decide) 1 (by decide)

/-- C10 witness: the termination theorem instantiated on the two-cell
tessellation — the found cell is a fixpoint, three units of extra fuel
change nothing, and the trace from cell 0 with fuel 2 has no repeats. -/
theorem findCell_termination_witness :
    findCellStep sqDistQ tessTwoCells 0 0 (findCell tessTwoCells sqDistQ 0 0 none)
      = none ∧
    findCellLoop sqDistQ tessTwoCells 0 0 (tessTwoCells.points.length + 3) 0
      = findCell tessTwoCells sqDistQ 0 0 none ∧
    (findCellTrace sqDistQ tessTwoCells 0 0 2 0).Nodup := by
  have h := findCell_termination sqDistQ tessTwoCells 0 0 none (by decide) (by decide)
  exact ⟨h.2.2.1, h.2.1 3, h.2.2.2 2 0⟩

/-! ### Claim C8: the radius check -/

/-- Modelled from the spec: the `@wwtelescope/astro` `distance` primitive
is not part of this repository; per the spec it is the spherical
law-of-cosines great-circle distance with the arccosine argument clamped
to `[-1, 1]`. -/
noncomputable def greatCircleDistance (ra1 dec1 ra2 dec2 : ℚ) : ℝ :=
  Real.arccos (max (-1) (min 1
    (Real.sin (dec1 : ℝ) * Real.sin (dec2 : ℝ) +
      Real.cos (dec1 : ℝ) * Real.cos (dec2 : ℝ) * Real.cos ((ra1 : ℝ) - (ra2 : ℝ)))))

/-- A one-cell tessellation whose single point is at distance 1 radian
from the origin query. -/
def tessOneCell : MongoTessellation :=
  { name := "one", neighbors := [[]], polygons := [], scene_ids := [3],
    points := [(0, 1)], last_updated := 0 }

theorem findCell_tessOneCell :
    findCell tessOneCell greatCircleDistance 0 0 none = 0 := rfl

/-- C8 counterexample: the claim says `findCellWithRadius` returns "no
match" exactly when the found cell's point is farther than the radius.
With `radius = 0` the JS falsiness test `!radius` disables the check
entirely: on a one-cell tessellation whose point lies at great-circle
distance 1 > 0 from the query, the call with radius 0 still returns the
cell. -/
theorem findCellWithRadius_radius_check_counterexample :
    findCellWithRadius tessOneCell greatCircleDistance 0 0 (some 0) = some 0 ∧
    tessOneCell.points.getD (findCell tessOneCell greatCircleDistance 0 0 none) (0, 0)
      = (0, 1) ∧
    0 < greatCircleDistance 0 0 0 1 := by
  refine ⟨?_, rfl, ?_⟩
  · unfold findCellWithRadius
    dsimp only
    rw [if_pos rfl, findCell_tessOneCell]
  · unfold greatCircleDistance
    push_cast
    rw [Real.sin_zero, sub_zero, Real.cos_zero]
    rw [zero_mul, zero_add, one_mul, mul_one]
    rw [min_eq_right (Real.cos_le_one 1), max_eq_right (Real.neg_one_le_cos 1)]
    rw [Real.arccos_cos (by norm_num) (by linarith [Real.pi_gt_three])]
    norm_num

/-- C8 (amended): `findCellWithRadius` returns "no match" exactly when a
*nonzero* radius was supplied and the found cell's point is at distance
*greater than or equal to* the radius (an absent or zero radius disables
the check — JS falsiness — and a hit at exactly the radius is rejected);
otherwise it returns the index found by `findCell` with no hint. -/
theorem findCellWithRadius_radius_check_amended {α : Type} [LinearOrderedField α]
    (tess : MongoTessellation) (d : ℚ → ℚ → ℚ → ℚ → α) (ra dec : ℚ)
    (radius : Option α) :
    (findCellWithRadius tess d ra dec radius = none ↔
      ∃ r, radius = some r ∧ r ≠ 0 ∧
        ¬ cellDist d tess ra dec (findCell tess d ra dec none) < r) ∧
    (∀ c, findCellWithRadius tess d ra dec radius = some c →
      c = findCell tess d ra dec none) := by
  unfold findCellWithRadius
  dsimp only
  cases radius with
  | none =>
    constructor
    · constructor
      · intro h; cases h
      · rintro ⟨r, hr, -, -⟩; cases hr
    · intro c hc
      simp only [Option.some_inj] at hc
      exact hc.symm
  | some r =>
    dsimp only
    by_cases hr : r = 0
    · rw [if_pos hr]
      constructor
      · constructor
        · intro h; cases h
        · rintro ⟨r2, hr2, hne, -⟩
          simp only [Option.some_inj] at hr2
          exact absurd (hr2 ▸ hr) hne
      · intro c hc
        simp only [Option.some_inj] at hc
        exact hc.symm
    · rw [if_neg hr]
      by_cases hd : d ra dec
          (tess.points.getD (findCell tess d ra dec none) (0, 0)).1
          (tess.points.getD (findCell tess d ra dec none) (0, 0)).2 < r
      · rw [if_pos hd]
        constructor
        · constructor
          · intro h; cases h
          · rintro ⟨r2, hr2, -, hnlt⟩
            simp only [Option.some_inj] at hr2
            exact absurd (hr2 ▸ hd) hnlt
        · intro c hc
          simp only [Option.some_inj] at hc
          exact hc.symm
      · rw [if_neg hd]
        constructor
        · constructor
          · intro _; exact ⟨r, rfl, hr, hd⟩
          · intro _; rfl
        · intro c hc; cases hc

/-- C8 witness: the amended characterization instantiated at the two-cell
tessellation with a rational distance and radius 1 (a rejected lookup). -/
theorem findCellWithRadius_radius_check_witness :
    (findCellWithRadius tessTwoCells sqDistQ 0 0 (some 1) = none ↔
      ∃ r, (some (1:ℚ)) = some r ∧ r ≠ 0 ∧
        ¬ cellDist sqDistQ tessTwoCells 0 0 (findCell tessTwoCells sqDistQ 0 0 none) < r) ∧
    (∀ c, findCellWithRadius tessTwoCells sqDistQ 0 0 (some 1) = some c →
      c = findCell tessTwoCells sqDistQ 0 0 none) :=
  findCellWithRadius_radius_check_amended tessTwoCells sqDistQ 0 0 (some 1)

/-- C9 witness: the amended bound instantiated on the two-cell
tessellation with the seed present and `k = 5`. -/
theorem nearbySceneIDs_bound_witness :
    (nearbySceneIDs 7 tessTwoCells 5).head? = some 7 ∧
    (nearbySceneIDs 7 tessTwoCells 5).length ≤ max 5 1 ∧
    (nearbySceneIDs 7 tessTwoCells 5).tail.Nodup ∧
    (∀ index, tessTwoCells.scene_ids.findIdx? (fun id => id == 7) = some index →
      2 ≤ 5 →
      ∃ ext, nearbySceneIDs 7 tessTwoCells 5 = 7 :: 7 :: ext) :=
  nearbySceneIDs_bound_amended tessTwoCells 7 5 (by decide) (by decide)

/-! ### Claim C6: the decay curve over exact reals -/

namespace RealDecay

/-- The source's `logisticDecay(k, t0, a)` over exact real arithmetic. -/
noncomputable def logisticDecay (k t0 a : ℝ) : ℝ → ℝ := fun t =>
  (1 + a * Real.exp (-k * t0)) / (1 + a * Real.exp (k * (t - t0)))

/-- The source's `halfLogisticDecay(k, t0)` over exact real arithmetic:
`a = 1 + 2·e^(−k·t0)`. -/
noncomputable def halfLogisticDecay (k t0 : ℝ) : ℝ → ℝ :=
  logisticDecay k t0 (1 + 2 * Real.exp (-k * t0))

/-- `millisecondsPerWeek = 1000 * 60 * 60 * 24 * 7`. -/
noncomputable def millisecondsPerWeek : ℝ := 1000 * 60 * 60 * 24 * 7

theorem a_pos (k t0 : ℝ) : 0 < 1 + 2 * Real.exp (-k * t0) := by
  have := Real.exp_pos (-k * t0)
  linarith

theorem S_pos (k t0 : ℝ) :
    0 < 1 + (1 + 2 * Real.exp (-k * t0)) * Real.exp (-k * t0) := by
  have h1 := Real.exp_pos (-k * t0)
  have h2 := a_pos k t0
  nlinarith

theorem denom_gt_one (k t0 t : ℝ) :
    1 < 1 + (1 + 2 * Real.exp (-k * t0)) * Real.exp (k * (t - t0)) := by
  have h1 := Real.exp_pos (k * (t - t0))
  have h2 := a_pos k t0
  nlinarith

theorem value_lt_S (k t0 t : ℝ) :
    halfLogisticDecay k t0 t
      < 1 + (1 + 2 * Real.exp (-k * t0)) * Real.exp (-k * t0) :=
  div_lt_self (S_pos k t0) (denom_gt_one k t0 t)

theorem tendsto_S {k : ℝ} (t0 : ℝ) (hk : 0 < k) :
    Filter.Tendsto (halfLogisticDecay k t0) Filter.atBot
      (nhds (1 + (1 + 2 * Real.exp (-k * t0)) * Real.exp (-k * t0))) := by
  have h1 : Filter.Tendsto (fun t : ℝ => k * (t - t0)) Filter.atBot Filter.atBot := by
    apply Filter.Tendsto.const_mul_atBot hk
    have := Filter.tendsto_atBot_add_const_right Filter.atBot (-t0)
      (Filter.tendsto_id (α := ℝ))
    simpa [sub_eq_add_neg] using this
  have h2 : Filter.Tendsto (fun t : ℝ => Real.exp (k * (t - t0))) Filter.atBot
      (nhds 0) := Real.tendsto_exp_atBot.comp h1
  have h3 : Filter.Tendsto
      (fun t : ℝ => 1 + (1 + 2 * Real.exp (-k * t0)) * Real.exp (k * (t - t0)))
      Filter.atBot (nhds 1) := by
    have := (h2.const_mul (1 + 2 * Real.exp (-k * t0))).const_add 1
    simpa using this
  have hconst : Filter.Tendsto
      (fun _ : ℝ => 1 + (1 + 2 * Real.exp (-k * t0)) * Real.exp (-k * t0))
      Filter.atBot
      (nhds (1 + (1 + 2 * Real.exp (-k * t0)) * Real.exp (-k * t0))) :=
    tendsto_const_nhds
  have h4 := Filter.Tendsto.div hconst h3 one_ne_zero
  rw [div_one] at h4
  exact h4

theorem isLUB_S {k : ℝ} (t0 : ℝ) (hk : 0 < k) :
    IsLUB (Set.range (halfLogisticDecay k t0))
      (1 + (1 + 2 * Real.exp (-k * t0)) * Real.exp (-k * t0)) := by
  constructor
  · rintro y ⟨t, rfl⟩
    exact le_of_lt (value_lt_S k t0 t)
  · intro b hb
    by_contra hcon
    push_neg at hcon
    have hev := (tendsto_S t0 hk).eventually (eventually_gt_nhds hcon)
    rcases hev.exists with ⟨t, hbt⟩
    have : halfLogisticDecay k t0 t ≤ b := hb ⟨t, rfl⟩
    linarith

theorem sup_eq {k : ℝ} (t0 : ℝ) (hk : 0 < k) :
    sSup (Set.range (halfLogisticDecay k t0))
      = 1 + (1 + 2 * Real.exp (-k * t0)) * Real.exp (-k * t0) :=
  (isLUB_S t0 hk).csSup_eq (Set.range_nonempty _)

theorem value_at_t0 (k t0 : ℝ) :
    halfLogisticDecay k t0 t0
      = (1 + (1 + 2 * Real.exp (-k * t0)) * Real.exp (-k * t0))
        / (2 + 2 * Real.exp (-k * t0)) := by
  unfold halfLogisticDecay logisticDecay
  rw [sub_self, mul_zero, Real.exp_zero, mul_one]
  ring_nf

/-- The implemented curve's value at `t0` is strictly *below* half the
curve's supremum (equality would need `a = 1`, but `a = 1 + 2·e^(−k·t0)`
exceeds 1). -/
theorem value_lt_half_sup {k : ℝ} (t0 : ℝ) (hk : 0 < k) :
    halfLogisticDecay k t0 t0
      < sSup (Set.range (halfLogisticDecay k t0)) / 2 := by
  rw [sup_eq t0 hk, value_at_t0]
  have hu := Real.exp_pos (-k * t0)
  exact div_lt_div_of_pos_left (S_pos k t0) (by norm_num) (by linarith)

/-- ... but the shortfall is less than `e^(−k·t0)` (astronomically small
for the implemented constants). -/
theorem half_sup_sub_lt {k t0 : ℝ} (hk : 0 < k) (ht0 : 0 < t0) :
    sSup (Set.range (halfLogisticDecay k t0)) / 2 - halfLogisticDecay k t0 t0
      < Real.exp (-k * t0) := by
  rw [sup_eq t0 hk, value_at_t0]
  have hu0 := Real.exp_pos (-k * t0)
  have hu1 : Real.exp (-k * t0) < 1 := by
    rw [← Real.exp_zero]
    exact Real.exp_lt_exp.mpr (by nlinarith)
  have hden : (0:ℝ) < 2 + 2 * Real.exp (-k * t0) := by linarith
  have key : (1 + (1 + 2 * Real.exp (-k * t0)) * Real.exp (-k * t0)) / 2
      - (1 + (1 + 2 * Real.exp (-k * t0)) * Real.exp (-k * t0))
        / (2 + 2 * Real.exp (-k * t0))
      = (1 + (1 + 2 * Real.exp (-k * t0)) * Real.exp (-k * t0))
        * Real.exp (-k * t0) / (2 + 2 * Real.exp (-k * t0)) := by
    field_simp
    ring
  rw [key, div_lt_iff₀ hden]
  nlinarith [mul_lt_mul_of_pos_right hu1 hu0,
    mul_lt_mul_of_pos_right (mul_lt_mul_of_pos_right hu1 hu0) hu0]

end RealDecay

/-- C6 counterexample: over exact real arithmetic, with `k = 0.01` and
`t0` one week in milliseconds (exactly the parameters `constructFeed`
passes to `halfLogisticDecay`), the curve's value at `t0` is *not* one
half of the curve's peak (supremum) value: the implemented
`a = 1 + 2·e^(−k·t0)` only approximates the `a` that would achieve this. -/
theorem halfLogisticDecay_half_peak_counterexample :
    RealDecay.halfLogisticDecay (1/100) RealDecay.millisecondsPerWeek
        RealDecay.millisecondsPerWeek
      ≠ sSup (Set.range
          (RealDecay.halfLogisticDecay (1/100) RealDecay.millisecondsPerWeek)) / 2 :=
  ne_of_lt (RealDecay.value_lt_half_sup RealDecay.millisecondsPerWeek (by norm_num))

/-- C6 (amended): for every `k > 0` and `t0 > 0`, the curve's supremum
(approached as `t → −∞`, never attained) is `1 + a·e^(−k·t0)` with
`a = 1 + 2·e^(−k·t0)`, and `f(t0)` is strictly *less* than half that
supremum — though it falls short by less than `e^(−k·t0)` (about
`e^(−6048000)` for the implemented constants, so the intended property
holds only up to that error, not exactly). -/
theorem halfLogisticDecay_half_peak_amended (k t0 : ℝ) (hk : 0 < k)
    (ht0 : 0 < t0) :
    sSup (Set.range (RealDecay.halfLogisticDecay k t0))
      = 1 + (1 + 2 * Real.exp (-k * t0)) * Real.exp (-k * t0) ∧
    RealDecay.halfLogisticDecay k t0 t0
      < sSup (Set.range (RealDecay.halfLogisticDecay k t0)) / 2 ∧
    sSup (Set.range (RealDecay.halfLogisticDecay k t0)) / 2
      - RealDecay.halfLogisticDecay k t0 t0 < Real.exp (-k * t0) :=
  ⟨RealDecay.sup_eq t0 hk, RealDecay.value_lt_half_sup t0 hk,
    RealDecay.half_sup_sub_lt hk ht0⟩

/-- C6 witness: the amended theorem at the implemented constants
`k = 0.01`, `t0 = millisecondsPerWeek`. -/
theorem halfLogisticDecay_half_peak_witness :
    (0:ℝ) < 1/100 ∧ (0:ℝ) < RealDecay.millisecondsPerWeek ∧
    (sSup (Set.range (RealDecay.halfLogisticDecay (1/100)
        RealDecay.millisecondsPerWeek))
      = 1 + (1 + 2 * Real.exp (-(1/100) * RealDecay.millisecondsPerWeek))
          * Real.exp (-(1/100) * RealDecay.millisecondsPerWeek) ∧
    RealDecay.halfLogisticDecay (1/100) RealDecay.millisecondsPerWeek
        RealDecay.millisecondsPerWeek
      < sSup (Set.range (RealDecay.halfLogisticDecay (1/100)
          RealDecay.millisecondsPerWeek)) / 2 ∧
    sSup (Set.range (RealDecay.halfLogisticDecay (1/100)
        RealDecay.millisecondsPerWeek)) / 2
      - RealDecay.halfLogisticDecay (1/100) RealDecay.millisecondsPerWeek
          RealDecay.millisecondsPerWeek
      < Real.exp (-(1/100) * RealDecay.millisecondsPerWeek)) :=
  ⟨by norm_num,
   by unfold RealDecay.millisecondsPerWeek; norm_num,
   halfLogisticDecay_half_peak_amended (1/100) RealDecay.millisecondsPerWeek
     (by norm_num) (by unfold RealDecay.millisecondsPerWeek; norm_num)⟩
